import Mathlib

/-!
Verification of the igb NIC driver's descriptor-ring engine.

Shallow embedding of `src/rxtx/mod.rs` (generic `Ring`), `src/rxtx/rx.rs`
(`RxRing`), `src/rxtx/tx.rs` (`TxRing`), `src/mac.rs` (`Mac::reset`),
`src/phy.rs` (`Phy::wait_for_negotiate`) and `src/misc.rs` (`wait_for`).

Modelling conventions:

* Machine integers are `Nat`; wherever the Rust code truncates, an explicit
  `% 2 ^ w` or a mask appears in the model.
* Fallible Rust (`Result`) becomes `Except Unit`; a Rust panic
  (`unwrap`, `expect`, out-of-bounds indexing, `% 0`) makes the model return
  `none`, so panic freedom is the statement that an operation is `some`.
* MMIO is split in two.  The tail register is written and read back only by
  the driver, so it is a state field `regTail` (this encodes the environment
  assumption that the tail register reads back the value last written).
  The head register and the DMA descriptor memory are written by the device,
  so each read of them takes its value from an oracle argument
  (`hwHead : Nat`, `hwDesc : Nat → _`) supplied per call.
* The driver's own writes into the descriptor table are tracked in the
  state field `table`; its length is the allocation length `desc_n` and is
  what the Rust `desc_table.len()` bound checks and `%` computations use.
-/

/-- Distance from index `a` to index `b` when walking forward around a ring
of `n` slots: `(b + n - a) % n`.  For `a b < n` this is the number of slots
strictly between the consumer at `a` and the producer at `b`, i.e. the number
of outstanding descriptors when `a` is the head mirror and `b` the tail. -/
def ringDist (n a b : Nat) : Nat := (b + n - a) % n

theorem ringDist_eq (n a b : Nat) (ha : a < n) (hb : b < n) :
    ringDist n a b = if a ≤ b then b - a else b + n - a := by
  unfold ringDist
  rcases le_or_lt a b with h | h
  · have : b + n - a = n + (b - a) := by omega
    rw [this, Nat.add_mod_left, Nat.mod_eq_of_lt (by omega), if_pos h]
  · rw [Nat.mod_eq_of_lt (by omega), if_neg (by omega)]

theorem ringDist_lt (n a b : Nat) (hn : 0 < n) : ringDist n a b < n :=
  Nat.mod_lt _ hn

theorem ringDist_self (n a : Nat) (ha : a < n) : ringDist n a a = 0 := by
  rw [ringDist_eq n a a ha ha]; simp

theorem ringDist_eq_zero_iff (n a b : Nat) (ha : a < n) (hb : b < n) :
    ringDist n a b = 0 ↔ a = b := by
  rw [ringDist_eq n a b ha hb]
  split <;> omega

/-- `(b + 1) % n` spelled out for `b < n`. -/
theorem succ_mod (n b : Nat) (hb : b < n) :
    (b + 1) % n = if b + 1 = n then 0 else b + 1 := by
  split
  · simp [*, Nat.mod_self]
  · exact Nat.mod_eq_of_lt (by omega)

/-- Advancing the producer wraps into the consumer exactly when the ring
already holds `n - 1` outstanding slots. -/
theorem succ_eq_iff_ringDist_full (n a b : Nat) (hn : 0 < n) (ha : a < n)
    (hb : b < n) : (b + 1) % n = a ↔ ringDist n a b = n - 1 := by
  rw [succ_mod n b hb, ringDist_eq n a b ha hb]
  split <;> split <;> omega

/-- Advancing the producer (when the ring is not full) grows the distance by
one. -/
theorem ringDist_succ_right (n a b : Nat) (hn : 0 < n) (ha : a < n)
    (hb : b < n) (hfull : ringDist n a b < n - 1) :
    ringDist n a ((b + 1) % n) = ringDist n a b + 1 := by
  rw [succ_mod n b hb]
  split
  · rw [ringDist_eq n a 0 ha (by omega), ringDist_eq n a b ha hb] at *
    split at hfull <;> split <;> omega
  · rw [ringDist_eq n a (b + 1) ha (by omega), ringDist_eq n a b ha hb] at *
    split at hfull <;> split <;> omega

/-- Advancing the consumer (when something is outstanding) shrinks the
distance to any other index reached later by one. -/
theorem ringDist_succ_left (n a c : Nat) (ha : a < n) (hc : c < n)
    (hpos : 1 ≤ ringDist n a c) :
    ringDist n ((a + 1) % n) c = ringDist n a c - 1 := by
  rw [succ_mod n a ha]
  split
  · rw [ringDist_eq n 0 c (by omega) hc, ringDist_eq n a c ha hc] at *
    split at hpos <;> split <;> omega
  · rw [ringDist_eq n (a + 1) c (by omega) hc, ringDist_eq n a c ha hc] at *
    split at hpos <;> split <;> omega

/-- The slot just vacated by the consumer is the farthest one from it. -/
theorem ringDist_succ_left_self (n a : Nat) (hn : 0 < n) (ha : a < n) :
    ringDist n ((a + 1) % n) a = n - 1 := by
  rw [succ_mod n a ha]
  split
  · rw [ringDist_eq n 0 a (by omega) ha]; split <;> omega
  · rw [ringDist_eq n (a + 1) a (by omega) ha]; split <;> omega

/-- For a fixed consumer position, the forward distance identifies the slot. -/
theorem ringDist_inj (n a i j : Nat) (ha : a < n) (hi : i < n) (hj : j < n)
    (h : ringDist n a i = ringDist n a j) : i = j := by
  rw [ringDist_eq n a i ha hi, ringDist_eq n a j ha hj] at h
  split at h <;> split at h <;> omega

/-! ## The generic descriptor ring (`Ring<D>` in `src/rxtx/mod.rs`) -/

/-- State of `Ring<D>`: the driver-written descriptor table (`desc_table`,
whose length is the capacity `N`), the hardware tail register `regTail`
(driver-owned, reads back the last written value), and the two software
mirrors `mirror_head` / `mirror_tail`.  The head register is only ever
written (to zero) by the driver; its reads are device-controlled and are
modelled as per-call oracle values. -/
structure RingState (D : Type) where
  table : List D
  regTail : Nat
  mirrorHead : Nat
  mirrorTail : Nat
deriving DecidableEq

namespace RingState

variable {D : Type}

/-- `Ring::init_tail_head`: zero the tail and head registers and both
mirrors.  (The head-register zero write is absorbed into the oracle
treatment of head reads.) -/
def init_tail_head (s : RingState D) : RingState D :=
  { s with regTail := 0, mirrorHead := 0, mirrorTail := 0 }

/-- `Ring::get_available`.  Reads the head register (`hwHead`, an oracle
value) and compares it with `mirror_head`; if unchanged returns `none`.
Otherwise it reads the descriptor at `mirror_head` out of DMA memory
(`hwDesc`, an oracle view of the device-visible contents; the
`desc_table.get(..).unwrap()` bound check panics — outer `none` — when
`mirror_head` is out of range) and advances `mirror_head` by one mod `N`. -/
def get_available (s : RingState D) (hwHead : Nat) (hwDesc : Nat → D) :
    Option (Option (D × Nat) × RingState D) :=
  if hwHead = s.mirrorHead then some (none, s)
  else if s.mirrorHead < s.table.length then
    some (some (hwDesc s.mirrorHead, s.mirrorHead),
      { s with mirrorHead := (s.mirrorHead + 1) % s.table.length })
  else none

/-- `Ring::add_desc`.  Reads the tail register, computes
`n_tail = (tail + 1) % N`; if `n_tail` hits `mirror_head` the ring is full
(`Err`), otherwise writes the descriptor at `tail`, advances the tail
register to `n_tail` and returns the filled slot.  The outer `none` models
the Rust panics: `% 0` when the table is empty, and an out-of-range
`desc_table.set`. -/
def add_desc (s : RingState D) (d : D) :
    Option (Except Unit Nat × RingState D) :=
  if s.table.length = 0 then none
  else
    if (s.regTail + 1) % s.table.length = s.mirrorHead then
      some (.error (), s)
    else if s.regTail < s.table.length then
      some (.ok s.regTail,
        { s with table := s.table.set s.regTail d,
                 regTail := (s.regTail + 1) % s.table.length })
    else none

end RingState

namespace RingState

variable {D : Type}

/-- Closed form of `get_available` when the head mirror is in range. -/
theorem get_available_eq (s : RingState D) (hwHead : Nat) (hwDesc : Nat → D)
    (hm : s.mirrorHead < s.table.length) :
    s.get_available hwHead hwDesc =
      if hwHead = s.mirrorHead then some (none, s)
      else
        some (some (hwDesc s.mirrorHead, s.mirrorHead),
          { s with mirrorHead := (s.mirrorHead + 1) % s.table.length }) := by
  unfold get_available
  rw [if_pos hm]

/-- Closed form of `add_desc` when the tail register is in range. -/
theorem add_desc_eq (s : RingState D) (d : D) (hn : 0 < s.table.length)
    (ht : s.regTail < s.table.length) :
    s.add_desc d =
      if (s.regTail + 1) % s.table.length = s.mirrorHead then
        some (.error (), s)
      else
        some (.ok s.regTail,
          { s with table := s.table.set s.regTail d,
                   regTail := (s.regTail + 1) % s.table.length }) := by
  unfold add_desc
  rw [if_neg (by omega : ¬s.table.length = 0), if_pos ht]

end RingState

/-! ## Call traces over a ring

A trace interleaves `add_desc` calls (each carrying the descriptor the
caller passes) and `get_available` calls (each carrying the oracle values
the hardware supplies for that call: the head-register read and the
device-visible DMA view of the descriptor table). -/

inductive RingOp (D : Type) where
  | add (d : D)
  | get (hwHead : Nat) (hwDesc : Nat → D)

/-- One driver call on the ring.  Returns `none` on a Rust panic, otherwise
the next state, `1/0` flags counting a successful `add_desc` and a
slot-yielding `get_available`, and the slot index the call surfaced. -/
def ringStep {D : Type} (s : RingState D) :
    RingOp D → Option (RingState D × Nat × Nat × Option Nat)
  | .add d =>
    match s.add_desc d with
    | none => none
    | some (.error _, s') => some (s', 0, 0, none)
    | some (.ok i, s') => some (s', 1, 0, some i)
  | .get hwHead hwDesc =>
    match s.get_available hwHead hwDesc with
    | none => none
    | some (none, s') => some (s', 0, 0, none)
    | some (some (_, i), s') => some (s', 0, 1, some i)

/-- Run a whole trace, accumulating the number of successful `add_desc`
calls, the number of `get_available` calls that returned a slot, and every
slot index surfaced. -/
def ringRun {D : Type} (s : RingState D) :
    List (RingOp D) → Option (RingState D × Nat × Nat × List Nat)
  | [] => some (s, 0, 0, [])
  | op :: ops =>
    match ringStep s op with
    | none => none
    | some (s', a, g, i?) =>
      match ringRun s' ops with
      | none => none
      | some (s'', a', g', is) => some (s'', a + a', g + g', i?.toList ++ is)

/-- Well-behaved hardware for one call: a head-register read is a slot
index (`< N`) that has not advanced past the posted region, i.e. it lies
at ring distance at most `ringDist N mirror_head tail` ahead of the
consumer mirror. -/
def ringOpOk {D : Type} (s : RingState D) : RingOp D → Bool
  | .add _ => true
  | .get hwHead _ =>
    decide (hwHead < s.table.length) &&
      decide (ringDist s.table.length s.mirrorHead hwHead ≤
        ringDist s.table.length s.mirrorHead s.regTail)

/-- Well-behaved hardware along a trace: every `get_available` call reads a
head position that only advanced over posted slots. -/
def validHw {D : Type} (s : RingState D) : List (RingOp D) → Bool
  | [] => true
  | op :: ops =>
    ringOpOk s op &&
      match ringStep s op with
      | none => true
      | some (s', _, _, _) => validHw s' ops

/-- The head-register reads of a trace are all below `n`. -/
def headsLt {D : Type} (n : Nat) : List (RingOp D) → Bool
  | [] => true
  | .add _ :: ops => headsLt n ops
  | .get hwHead _ :: ops => decide (hwHead < n) && headsLt n ops

/-- One ring call from an in-range state never panics, keeps both
driver-held positions in range, surfaces only in-range slot indices, and —
for well-behaved hardware — changes the outstanding count (the ring
distance from the head mirror to the tail register) by exactly its
add/get success flags. -/
theorem ringStep_spec {D : Type} (s : RingState D) (op : RingOp D)
    (hn : 0 < s.table.length) (hm : s.mirrorHead < s.table.length)
    (ht : s.regTail < s.table.length) :
    ∃ s' a g i?, ringStep s op = some (s', a, g, i?) ∧
      s'.table.length = s.table.length ∧
      s'.mirrorHead < s.table.length ∧ s'.regTail < s.table.length ∧
      (∀ i, i? = some i → i < s.table.length) ∧
      (ringOpOk s op = true →
        ringDist s.table.length s.mirrorHead s.regTail + a =
          ringDist s.table.length s'.mirrorHead s'.regTail + g) := by
  set n := s.table.length with hdefn
  cases op with
  | add d =>
    rw [show ringStep s (.add d) = (match s.add_desc d with
      | none => none
      | some (.error _, s') => some (s', 0, 0, none)
      | some (.ok i, s') => some (s', 1, 0, some i)) from rfl,
      s.add_desc_eq d hn ht]
    by_cases hfull : (s.regTail + 1) % n = s.mirrorHead
    · rw [if_pos hfull]
      exact ⟨s, 0, 0, none, rfl, rfl, hm, ht, by simp, by simp⟩
    · rw [if_neg hfull]
      refine ⟨_, 1, 0, some s.regTail, rfl, by simp, by simpa using hm, ?_, ?_, ?_⟩
      · simpa using Nat.mod_lt _ hn
      · intro i hi
        cases hi; exact ht
      · intro _
        have hlt : ringDist n s.mirrorHead s.regTail < n - 1 := by
          have h1 := ringDist_lt n s.mirrorHead s.regTail hn
          have h2 := (succ_eq_iff_ringDist_full n s.mirrorHead s.regTail hn hm ht).not.mp hfull
          omega
        simp only [List.length_set]
        rw [ringDist_succ_right n s.mirrorHead s.regTail hn hm ht hlt]
  | get hwHead hwDesc =>
    rw [show ringStep s (.get hwHead hwDesc) = (match s.get_available hwHead hwDesc with
      | none => none
      | some (none, s') => some (s', 0, 0, none)
      | some (some (_, i), s') => some (s', 0, 1, some i)) from rfl,
      s.get_available_eq hwHead hwDesc hm]
    by_cases heq : hwHead = s.mirrorHead
    · rw [if_pos heq]
      exact ⟨s, 0, 0, none, rfl, rfl, hm, ht, by simp, by simp⟩
    · rw [if_neg heq]
      refine ⟨_, 0, 1, some s.mirrorHead, rfl, rfl, ?_, ht, ?_, ?_⟩
      · simpa using Nat.mod_lt _ hn
      · intro i hi
        cases hi; exact hm
      · intro hok
        simp only [ringOpOk, Bool.and_eq_true, decide_eq_true_eq] at hok
        rw [← hdefn] at hok
        have hpos : 1 ≤ ringDist n s.mirrorHead s.regTail := by
          have h0 : ringDist n s.mirrorHead hwHead ≠ 0 :=
            fun h => heq ((ringDist_eq_zero_iff n s.mirrorHead hwHead hm hok.1).mp h).symm
          omega
        rw [ringDist_succ_left n s.mirrorHead s.regTail hm ht hpos]
        omega

/-- Running any trace from an in-range state never panics, keeps the
driver-held positions in range, surfaces only in-range slot indices, and —
for well-behaved hardware — relates the outstanding count to the success
counters: `dist₀ + adds = dist' + gets`. -/
theorem ringRun_spec {D : Type} (ops : List (RingOp D)) (s : RingState D)
    (hn : 0 < s.table.length) (hm : s.mirrorHead < s.table.length)
    (ht : s.regTail < s.table.length) :
    ∃ s' a g is, ringRun s ops = some (s', a, g, is) ∧
      s'.table.length = s.table.length ∧
      s'.mirrorHead < s.table.length ∧ s'.regTail < s.table.length ∧
      (∀ i ∈ is, i < s.table.length) ∧
      (validHw s ops = true →
        ringDist s.table.length s.mirrorHead s.regTail + a =
          ringDist s.table.length s'.mirrorHead s'.regTail + g) := by
  induction ops generalizing s with
  | nil =>
    exact ⟨s, 0, 0, [], rfl, rfl, hm, ht, by simp, by simp⟩
  | cons op ops ih =>
    obtain ⟨s1, a1, g1, i?, hstep, hlen1, hm1, ht1, hidx1, hdist1⟩ :=
      ringStep_spec s op hn hm ht
    have hn1 : 0 < s1.table.length := by rw [hlen1]; exact hn
    have hm1' : s1.mirrorHead < s1.table.length := by rw [hlen1]; exact hm1
    have ht1' : s1.regTail < s1.table.length := by rw [hlen1]; exact ht1
    obtain ⟨s2, a2, g2, is2, hrun, hlen2, hm2, ht2, hidx2, hdist2⟩ :=
      ih s1 hn1 hm1' ht1'
    rw [hlen1] at hlen2 hm2 ht2 hidx2
    refine ⟨s2, a1 + a2, g1 + g2, i?.toList ++ is2, ?_, hlen2, hm2, ht2, ?_, ?_⟩
    · simp only [ringRun, hstep, hrun]
    · intro i hi
      rcases List.mem_append.mp hi with h | h
      · cases i? with
        | none => simp at h
        | some j =>
          simp only [Option.toList_some, List.mem_singleton] at h
          exact h ▸ hidx1 j rfl
      · exact hidx2 i h
    · intro hv
      simp only [validHw, hstep, Bool.and_eq_true] at hv
      have e1 := hdist1 hv.1
      have e2 := hdist2 hv.2
      rw [hlen1] at e2
      omega

/-- C1.  Starting from `init_tail_head` on a ring of capacity `N > 0`, with
the tail register reading back the last written value (built into the
model) and the hardware head only advancing over posted slots (`validHw`),
any sequence of `add_desc`/`get_available` calls keeps the number of
outstanding descriptors — successful adds minus slot-yielding gets — at most
`N - 1`, and at that point `add_desc` returns the ring-full error exactly
when the ring holds `N - 1` outstanding descriptors. -/
theorem ring_outstanding_spec {D : Type} (s₀ : RingState D)
    (ops : List (RingOp D)) (d : D) (s' : RingState D) (a g : Nat)
    (is : List Nat) (hn : 0 < s₀.table.length)
    (hv : validHw s₀.init_tail_head ops = true)
    (hr : ringRun s₀.init_tail_head ops = some (s', a, g, is)) :
    g ≤ a ∧ a - g ≤ s₀.table.length - 1 ∧
      (s'.add_desc d = some (.error (), s') ↔ a - g = s₀.table.length - 1) := by
  obtain ⟨s1, a1, g1, is1, hrun, hlen, hm, ht, _, hdist⟩ :=
    ringRun_spec ops s₀.init_tail_head hn (by simpa using hn) (by simpa using hn)
  rw [hr] at hrun
  simp only [Option.some.injEq, Prod.mk.injEq] at hrun
  obtain ⟨rfl, rfl, rfl, rfl⟩ := hrun
  have hlen' : s'.table.length = s₀.table.length := hlen
  have hm' : s'.mirrorHead < s₀.table.length := hm
  have ht' : s'.regTail < s₀.table.length := ht
  have hd0 : ringDist s₀.table.length 0 0 = 0 := ringDist_self _ 0 hn
  have heq := hdist hv
  have hinitlen : s₀.init_tail_head.table.length = s₀.table.length := rfl
  have hinitmh : s₀.init_tail_head.mirrorHead = 0 := rfl
  have hinitrt : s₀.init_tail_head.regTail = 0 := rfl
  rw [hinitlen, hinitmh, hinitrt, hd0] at heq
  have heq' : a = ringDist s₀.table.length s'.mirrorHead s'.regTail + g := by
    omega
  have hdist_lt := ringDist_lt s₀.table.length s'.mirrorHead s'.regTail hn
  refine ⟨by omega, by omega, ?_⟩
  rw [s'.add_desc_eq d (by omega) (by omega)]
  have hiff := succ_eq_iff_ringDist_full s₀.table.length s'.mirrorHead s'.regTail
    hn hm' ht'
  rw [← hlen'] at hiff
  constructor
  · intro herr
    by_cases hfull : (s'.regTail + 1) % s'.table.length = s'.mirrorHead
    · have := hiff.mp hfull
      rw [hlen'] at this
      omega
    · rw [if_neg hfull] at herr
      simp at herr
  · intro hc
    have hfull : (s'.regTail + 1) % s'.table.length = s'.mirrorHead := by
      apply hiff.mpr
      rw [hlen']
      omega
    rw [if_pos hfull]

/-- C10.  Starting from `init_tail_head` on a ring of capacity `N > 0`,
with the tail register reading back the last written value (built into the
model) and head-register reads below `N`, every trace of
`add_desc`/`get_available` calls runs to completion (`some`): the
`desc_table.get(..).unwrap()` in `get_available`, the `% N`, and the
indexed `desc_table.set` in `add_desc` never panic; the head mirror stays
below `N`, and every surfaced slot index is below `N`.  (The proof does not
even need the bound on head reads: `ringRun_spec` yields the same
conclusion for arbitrary head values.) -/
theorem ring_access_bounds_spec {D : Type} (s₀ : RingState D)
    (ops : List (RingOp D)) (hn : 0 < s₀.table.length)
    (_hh : headsLt s₀.table.length ops = true) :
    ∃ s' a g is, ringRun s₀.init_tail_head ops = some (s', a, g, is) ∧
      s'.mirrorHead < s₀.table.length ∧ s'.regTail < s₀.table.length ∧
      ∀ i ∈ is, i < s₀.table.length := by
  obtain ⟨s', a, g, is, hrun, hlen, hm, ht, hidx, _⟩ :=
    ringRun_spec ops s₀.init_tail_head hn (by simpa using hn) (by simpa using hn)
  exact ⟨s', a, g, is, hrun, hm, ht, hidx⟩

/-- C2.  `add_desc` computes `next = (tail + 1) mod N` from the tail
register; if `next` equals the consumer mirror it returns the ring-full
error leaving the descriptor table, the tail register and both mirrors
unchanged; otherwise it writes the descriptor at the old tail position,
advances the tail register to `next`, and returns the old tail position.
(`mirror_head` and `mirror_tail` are untouched in the success case too, as
the `{ s with .. }` update shows.) -/
theorem add_desc_spec {D : Type} (s : RingState D) (d : D)
    (hn : 0 < s.table.length) (ht : s.regTail < s.table.length) :
    s.add_desc d =
      if (s.regTail + 1) % s.table.length = s.mirrorHead then
        some (.error (), s)
      else
        some (.ok s.regTail,
          { s with table := s.table.set s.regTail d,
                   regTail := (s.regTail + 1) % s.table.length }) :=
  s.add_desc_eq d hn ht

/-- Witness for C2 at a concrete ring: capacity 3, full and non-full
cases both evaluated. -/
theorem add_desc_spec_witness :
    (0 < ([10, 20, 30] : List Nat).length ∧ 2 < ([10, 20, 30] : List Nat).length) ∧
      (RingState.add_desc ⟨[10, 20, 30], 2, 0, 0⟩ 7 =
        some (.error (), ⟨[10, 20, 30], 2, 0, 0⟩)) ∧
      (RingState.add_desc ⟨[10, 20, 30], 2, 1, 0⟩ 7 =
        some (.ok 2, ⟨[10, 20, 7], 0, 1, 0⟩)) := by
  refine ⟨by decide, ?_, ?_⟩
  · rw [add_desc_spec (⟨[10, 20, 30], 2, 0, 0⟩ : RingState Nat) 7 (by decide) (by decide)]
    rfl
  · rw [add_desc_spec (⟨[10, 20, 30], 2, 1, 0⟩ : RingState Nat) 7 (by decide) (by decide)]
    rfl

/-- C3.  `get_available` returns `none` exactly when the hardware-reported
head equals the software head mirror; otherwise it returns the descriptor
read at the mirrored index together with that index and advances the
mirror by one mod `N`.  In both cases the table, the tail register and the
tail mirror are unchanged (the `{ s with .. }` update touches only
`mirrorHead`), i.e. it writes no register and no descriptor. -/
theorem get_available_spec {D : Type} (s : RingState D) (hwHead : Nat)
    (hwDesc : Nat → D) (hm : s.mirrorHead < s.table.length) :
    s.get_available hwHead hwDesc =
      if hwHead = s.mirrorHead then some (none, s)
      else
        some (some (hwDesc s.mirrorHead, s.mirrorHead),
          { s with mirrorHead := (s.mirrorHead + 1) % s.table.length }) :=
  s.get_available_eq hwHead hwDesc hm

/-- Witness for C3 at a concrete ring: capacity 3, both the unchanged-head
and the advancing cases evaluated. -/
theorem get_available_spec_witness :
    (1 < ([10, 20, 30] : List Nat).length) ∧
      (RingState.get_available ⟨[10, 20, 30], 2, 1, 0⟩ 1 (fun i => 100 + i) =
        some (none, ⟨[10, 20, 30], 2, 1, 0⟩)) ∧
      (RingState.get_available ⟨[10, 20, 30], 2, 1, 0⟩ 2 (fun i => 100 + i) =
        some (some (101, 1), ⟨[10, 20, 30], 2, 2, 0⟩)) := by
  refine ⟨by decide, ?_, ?_⟩
  · rw [get_available_spec (⟨[10, 20, 30], 2, 1, 0⟩ : RingState Nat) 1 _ (by decide)]
    rfl
  · rw [get_available_spec (⟨[10, 20, 30], 2, 1, 0⟩ : RingState Nat) 2 _ (by decide)]
    rfl

/-! ## Packet buffers

The `Pkt` type lives in the crate root (`lib.rs` of the igb crate), which
is not among the provided sources; only its uses in `rx.rs`/`tx.rs` and the
spec describe it. -/

/-- Modelled from the spec: a `Pkt` (packet buffer) owns a DMA-mapped byte
buffer tagged with a transfer direction and exposes a device-visible bus
address; `Pkt::new_rx`/`Pkt::new_tx` wrap a freshly allocated byte vector.
The missing source is the igb crate root (`lib.rs`).  `id` is the
allocation identity of the owned buffer: the allocator hands out distinct
live buffers, modelled by a per-ring allocation counter; the buffer's bus
address is derived from it (even, as DMA allocations are aligned). -/
structure Pkt where
  id : Nat
  len : Nat
  fromDevice : Bool
deriving DecidableEq

/-- Modelled from the spec: the device-visible bus address of the packet's
buffer (distinct per live allocation, even). -/
def Pkt.bus_addr (p : Pkt) : Nat := 2 * p.id

/-! ## The receive ring (`RxRing` in `src/rxtx/rx.rs`) -/

/-- An advanced receive descriptor: 128 bits, two superimposed views.
`lo`/`hi` are the two little-endian `u64` words.  In the software-write
view (`AdvRxDescRead`) they are the packet buffer address (bit 0 = A0/NSE)
and the header buffer address (bit 0 = DD); in the hardware write-back view
(`AdvRxDescWB`) the low 32 bits of `hi` are the `error_type_status` dword
whose bit 0 is Descriptor-Done. -/
structure RxDescBits where
  lo : Nat
  hi : Nat
deriving DecidableEq

/-- `AdvRxDescWB::is_done`: bit 0 (the DD mask of `RX_DESC_EXT_STATUS`) of
the `error_type_status` dword, i.e. bit 0 of the second word. -/
def RxDescBits.is_done (d : RxDescBits) : Bool :=
  decide ((d.hi % 2 ^ 32) &&& 1 ≠ 0)

/-- `AdvRxDescRead::new`: sets or clears the NSE bit (bit 0) of the packet
address and forces the DD bit (bit 0) of the header address to 0. -/
def AdvRxDescRead.new (pkt_addr hdr_addr : Nat) (nse : Bool) : RxDescBits :=
  { lo := if nse then pkt_addr ||| 1 else pkt_addr &&& (2 ^ 64 - 2),
    hi := hdr_addr &&& (2 ^ 64 - 2) }

/-- State of `RxRing`: the underlying ring, the parallel metadata table
`mete_ls : Vec<Option<Pkt>>`, the configured packet size, and the
allocation counter that models the freshness of `Pkt::new_rx`'s buffer
(each call allocates a new vector, so each posted packet is a distinct
instance). -/
structure RxRing where
  base : RingState RxDescBits
  mete_ls : List (Option Pkt)
  pkt_size : Nat
  alloc_next : Nat
deriving DecidableEq

/-- `RxRing::receive`.  One call: harvest at most one completed slot, then
unconditionally try to repost one freshly allocated buffer.

* `get_available` on the base ring (head read and DMA view supplied by the
  oracles); a panic there propagates.
* If a slot came back and its write-back DD bit is set, `take()` the
  metadata entry (`expect("should have pkts!!!")` panics — `none` — if the
  entry is empty or the index is out of range) and stage it as the result;
  if DD is clear the slot is only logged and nothing is harvested.
* Allocate a fresh `pkt_size` buffer (`Pkt::new_rx`), build
  `AdvRxDescRead::new(bus_addr, 0, false)` and `add_desc` it; on success
  store the packet at the returned slot (`mete_ls[tail] = Some(..)`,
  panicking if out of range); on ring-full the allocation is dropped and no
  error is surfaced. -/
def RxRing.receive (s : RxRing) (hwHead : Nat) (hwDesc : Nat → RxDescBits) :
    Option (Option Pkt × RxRing) :=
  match s.base.get_available hwHead hwDesc with
  | none => none
  | some (avail, base1) =>
    let step2 : Option (Option Pkt × List (Option Pkt)) :=
      match avail with
      | none => some (none, s.mete_ls)
      | some (d, idx) =>
        if d.is_done then
          match s.mete_ls[idx]? with
          | some (some pkt) => some (some pkt, s.mete_ls.set idx none)
          | _ => none
        else some (none, s.mete_ls)
    match step2 with
    | none => none
    | some (res, meta1) =>
      let req : Pkt := { id := s.alloc_next, len := s.pkt_size, fromDevice := true }
      match base1.add_desc (AdvRxDescRead.new req.bus_addr 0 false) with
      | none => none
      | some (.error _, base2) =>
        some (res, { s with base := base2, mete_ls := meta1,
                            alloc_next := s.alloc_next + 1 })
      | some (.ok tail, base2) =>
        if tail < meta1.length then
          some (res, { s with base := base2,
                              mete_ls := meta1.set tail (some req),
                              alloc_next := s.alloc_next + 1 })
        else none

/-- Clearing bit 0 with the `!NSE`/`!DD` mask (`&&& (2^64 - 2)`) is the
identity on even 64-bit values. -/
theorem and_two_pow_sub_two_eq (a : Nat) (ha : a < 2 ^ 64) (he : a % 2 = 0) :
    a &&& (2 ^ 64 - 2) = a := by
  apply Nat.eq_of_testBit_eq
  intro i
  rw [Nat.testBit_land,
    show ((2 : Nat) ^ 64 - 2) = (2 ^ 64 - 1) ^^^ 1 by decide,
    Nat.testBit_xor, Nat.testBit_two_pow_sub_one,
    show (1 : Nat) = 2 ^ 0 from rfl, Nat.testBit_two_pow]
  rcases Nat.eq_zero_or_pos i with rfl | hi
  · simp [Nat.testBit_zero, he]
  · have h64 : i < 64 ∨ 64 ≤ i := by omega
    rcases h64 with h64 | h64
    · have h0 : (0 : Nat) ≠ i := by omega
      simp [h0, h64]
    · have : a.testBit i = false :=
        Nat.testBit_lt_two_pow
          (lt_of_lt_of_le ha (Nat.pow_le_pow_right (by norm_num) h64))
      simp [this]

/-- A reposted receive descriptor has its header-address word fully zero. -/
theorem AdvRxDescRead.new_hi_zero (a : Nat) (nse : Bool) :
    (AdvRxDescRead.new a 0 nse).hi = 0 := by
  simp [AdvRxDescRead.new]

/-- A reposted receive descriptor has its Descriptor-Done bit clear. -/
theorem AdvRxDescRead.new_not_done (a : Nat) (nse : Bool) :
    (AdvRxDescRead.new a 0 nse).is_done = false := by
  simp [RxDescBits.is_done, AdvRxDescRead.new_hi_zero]

/-- With `nse = false`, the packet-address word of a reposted receive
descriptor is exactly the (even, 64-bit) bus address passed in. -/
theorem AdvRxDescRead.new_lo (a : Nat) (ha : a < 2 ^ 64) (he : a % 2 = 0) :
    (AdvRxDescRead.new a 0 false).lo = a := by
  have h : (AdvRxDescRead.new a 0 false).lo = a &&& (2 ^ 64 - 2) := rfl
  rw [h, and_two_pow_sub_two_eq a ha he]

/-- Eliminator for facts about the result of a call that evaluated to
`some (r₀, s₀)`. -/
theorem recv_elim {α β : Type} {x : Option (α × β)} {r₀ : α} {s₀ : β}
    (h : x = some (r₀, s₀)) (P : α → β → Prop) (hp : P r₀ s₀) :
    ∀ r s, x = some (r, s) → P r s := by
  intro r s hx
  rw [h, Option.some.injEq] at hx
  obtain ⟨h1, h2⟩ := Prod.ext_iff.mp hx
  subst h1
  subst h2
  exact hp

/-- Eliminator for facts about calls that returned a packet. -/
theorem recv_elim_some {β : Type} {x : Option (Option Pkt × β)}
    {r₀ : Option Pkt} {s₀ : β} (h : x = some (r₀, s₀)) (P : Pkt → β → Prop)
    (hp : ∀ q, r₀ = some q → P q s₀) :
    ∀ q s, x = some (some q, s) → P q s := by
  intro q s hx
  rw [h, Option.some.injEq] at hx
  obtain ⟨h1, h2⟩ := Prod.ext_iff.mp hx
  subst h2
  exact hp q h1

/-- C4.  One `receive()` call (with in-range state, metadata table sized to
the ring): (1) a packet is returned exactly when `get_available` yields a
slot whose write-back DD bit is set; (2) the returned packet is the one
previously stored in the metadata table at that slot, and that entry
becomes `None`; (3) an empty entry there is a panic
(`expect("should have pkts!!!")`), not a recoverable error; (4) every
completed call allocates exactly one fresh buffer of the configured packet
size and attempts exactly one `add_desc` of
`AdvRxDescRead::new(bus_addr, 0, false)` — header address word zero, DD bit
clear; when the ring is full nothing is posted, the metadata table gains no
entry (the allocation is discarded), and no error is surfaced (the return
value is the harvest result in both branches). -/
theorem rx_receive_spec (s : RxRing) (hwHead : Nat) (hwDesc : Nat → RxDescBits)
    (hn : 0 < s.base.table.length)
    (hm : s.base.mirrorHead < s.base.table.length)
    (ht : s.base.regTail < s.base.table.length)
    (hlen : s.mete_ls.length = s.base.table.length) :
    (∀ res s', s.receive hwHead hwDesc = some (res, s') →
      (res.isSome = true ↔
        hwHead ≠ s.base.mirrorHead ∧
          (hwDesc s.base.mirrorHead).is_done = true)) ∧
    (∀ q s', s.receive hwHead hwDesc = some (some q, s') →
      s.mete_ls[s.base.mirrorHead]? = some (some q) ∧
      s'.mete_ls[s.base.mirrorHead]? = some none) ∧
    (hwHead ≠ s.base.mirrorHead → (hwDesc s.base.mirrorHead).is_done = true →
      s.mete_ls[s.base.mirrorHead]? = some none →
      s.receive hwHead hwDesc = none) ∧
    (∀ res s', s.receive hwHead hwDesc = some (res, s') →
      s'.alloc_next = s.alloc_next + 1 ∧
      (AdvRxDescRead.new
        (Pkt.bus_addr ⟨s.alloc_next, s.pkt_size, true⟩) 0 false).hi = 0 ∧
      (AdvRxDescRead.new
        (Pkt.bus_addr ⟨s.alloc_next, s.pkt_size, true⟩) 0 false).is_done
          = false ∧
      (if (s.base.regTail + 1) % s.base.table.length =
          (if hwHead = s.base.mirrorHead then s.base.mirrorHead
           else (s.base.mirrorHead + 1) % s.base.table.length) then
        s'.base.regTail = s.base.regTail ∧ s'.base.table = s.base.table ∧
        s'.mete_ls =
          (if res.isSome then s.mete_ls.set s.base.mirrorHead none
           else s.mete_ls)
      else
        s'.base.regTail = (s.base.regTail + 1) % s.base.table.length ∧
        s'.base.table = s.base.table.set s.base.regTail
          (AdvRxDescRead.new
            (Pkt.bus_addr ⟨s.alloc_next, s.pkt_size, true⟩) 0 false) ∧
        s'.mete_ls =
          ((if res.isSome then s.mete_ls.set s.base.mirrorHead none
            else s.mete_ls)).set s.base.regTail
              (some ⟨s.alloc_next, s.pkt_size, true⟩))) := by
  have hga := s.base.get_available_eq hwHead hwDesc hm
  have hlen' : s.base.mirrorHead < s.mete_ls.length := by omega
  by_cases hq : hwHead = s.base.mirrorHead
  · rw [if_pos hq] at hga
    have had := s.base.add_desc_eq
      (AdvRxDescRead.new (Pkt.bus_addr ⟨s.alloc_next, s.pkt_size, true⟩) 0
        false) hn ht
    by_cases hfull :
        (s.base.regTail + 1) % s.base.table.length = s.base.mirrorHead
    · rw [if_pos hfull] at had
      have hrec : s.receive hwHead hwDesc =
          some (none, ⟨s.base, s.mete_ls, s.pkt_size, s.alloc_next + 1⟩) := by
        simp only [RxRing.receive, hga, had]
      refine ⟨recv_elim hrec _ ?_, recv_elim_some hrec _ ?_, ?_,
        recv_elim hrec _ ?_⟩
      · simp [hq]
      · simp
      · intro hne
        exact absurd hq hne
      · refine ⟨rfl, AdvRxDescRead.new_hi_zero _ _,
          AdvRxDescRead.new_not_done _ _, ?_⟩
        rw [if_pos hq, if_pos hfull]
        exact ⟨rfl, rfl, by simp⟩
    · rw [if_neg hfull] at had
      have hrec : s.receive hwHead hwDesc =
          some (none,
            ⟨⟨s.base.table.set s.base.regTail
                (AdvRxDescRead.new
                  (Pkt.bus_addr ⟨s.alloc_next, s.pkt_size, true⟩) 0 false),
              (s.base.regTail + 1) % s.base.table.length,
              s.base.mirrorHead, s.base.mirrorTail⟩,
             s.mete_ls.set s.base.regTail
               (some ⟨s.alloc_next, s.pkt_size, true⟩),
             s.pkt_size, s.alloc_next + 1⟩) := by
        simp only [RxRing.receive, hga, had]
        rw [if_pos (by omega : s.base.regTail < s.mete_ls.length)]
      refine ⟨recv_elim hrec _ ?_, recv_elim_some hrec _ ?_, ?_,
        recv_elim hrec _ ?_⟩
      · simp [hq]
      · simp
      · intro hne
        exact absurd hq hne
      · refine ⟨rfl, AdvRxDescRead.new_hi_zero _ _,
          AdvRxDescRead.new_not_done _ _, ?_⟩
        rw [if_pos hq, if_neg hfull]
        exact ⟨rfl, rfl, by simp⟩
  · rw [if_neg hq] at hga
    have hmb : (s.base.mirrorHead + 1) % s.base.table.length <
        s.base.table.length := Nat.mod_lt _ hn
    have had := RingState.add_desc_eq
      ⟨s.base.table, s.base.regTail,
        (s.base.mirrorHead + 1) % s.base.table.length, s.base.mirrorTail⟩
      (AdvRxDescRead.new (Pkt.bus_addr ⟨s.alloc_next, s.pkt_size, true⟩) 0
        false) hn ht
    by_cases hdone : (hwDesc s.base.mirrorHead).is_done = true
    · obtain ⟨v, hmv⟩ : ∃ v, s.mete_ls[s.base.mirrorHead]? = some v := by
        rw [List.getElem?_eq_getElem hlen']
        exact ⟨_, rfl⟩
      rcases v with _ | pkt
      · -- empty metadata entry: the `expect` panics
        have hrec : s.receive hwHead hwDesc = none := by
          simp only [RxRing.receive, hga, hdone, if_true, hmv]
        refine ⟨?_, ?_, ?_, ?_⟩
        · intro res s' h
          rw [hrec] at h
          exact absurd h (by simp)
        · intro q s' h
          rw [hrec] at h
          exact absurd h (by simp)
        · intro _ _ _
          exact hrec
        · intro res s' h
          rw [hrec] at h
          exact absurd h (by simp)
      · -- populated entry: harvest
        by_cases hfull : (s.base.regTail + 1) % s.base.table.length =
            (s.base.mirrorHead + 1) % s.base.table.length
        · rw [if_pos hfull] at had
          have hrec : s.receive hwHead hwDesc =
              some (some pkt,
                ⟨⟨s.base.table, s.base.regTail,
                  (s.base.mirrorHead + 1) % s.base.table.length,
                  s.base.mirrorTail⟩,
                 s.mete_ls.set s.base.mirrorHead none,
                 s.pkt_size, s.alloc_next + 1⟩) := by
            simp only [RxRing.receive, hga, hdone, if_true, hmv, had]
          refine ⟨recv_elim hrec _ ?_, ?_, ?_, recv_elim hrec _ ?_⟩
          · simp [hq, hdone]
          · intro q s' h
            rw [hrec] at h
            simp only [Option.some.injEq, Prod.mk.injEq] at h
            obtain ⟨rfl, rfl⟩ := h
            exact ⟨hmv, List.getElem?_set_self hlen'⟩
          · intro _ _ hmn
            rw [hmv] at hmn
            exact absurd (Option.some.inj hmn) (by simp)
          · refine ⟨rfl, AdvRxDescRead.new_hi_zero _ _,
              AdvRxDescRead.new_not_done _ _, ?_⟩
            rw [if_neg hq, if_pos hfull]
            exact ⟨rfl, rfl, by simp⟩
        · rw [if_neg hfull] at had
          have htm : s.base.regTail ≠ s.base.mirrorHead := by
            intro h
            exact hfull (by rw [h])
          have hrec : s.receive hwHead hwDesc =
              some (some pkt,
                ⟨⟨s.base.table.set s.base.regTail
                    (AdvRxDescRead.new
                      (Pkt.bus_addr ⟨s.alloc_next, s.pkt_size, true⟩) 0
                      false),
                  (s.base.regTail + 1) % s.base.table.length,
                  (s.base.mirrorHead + 1) % s.base.table.length,
                  s.base.mirrorTail⟩,
                 (s.mete_ls.set s.base.mirrorHead none).set s.base.regTail
                   (some ⟨s.alloc_next, s.pkt_size, true⟩),
                 s.pkt_size, s.alloc_next + 1⟩) := by
            simp only [RxRing.receive, hga, hdone, if_true, hmv, had]
            rw [if_pos (by simp; omega :
              s.base.regTail < (s.mete_ls.set s.base.mirrorHead none).length)]
          refine ⟨recv_elim hrec _ ?_, ?_, ?_, recv_elim hrec _ ?_⟩
          · simp [hq, hdone]
          · intro q s' h
            rw [hrec] at h
            simp only [Option.some.injEq, Prod.mk.injEq] at h
            obtain ⟨rfl, rfl⟩ := h
            refine ⟨hmv, ?_⟩
            rw [List.getElem?_set_ne htm, List.getElem?_set_self hlen']
          · intro _ _ hmn
            rw [hmv] at hmn
            exact absurd (Option.some.inj hmn) (by simp)
          · refine ⟨rfl, AdvRxDescRead.new_hi_zero _ _,
              AdvRxDescRead.new_not_done _ _, ?_⟩
            rw [if_neg hq, if_neg hfull]
            exact ⟨rfl, rfl, by simp⟩
    · -- DD clear: spurious availability, nothing harvested
      rw [Bool.not_eq_true] at hdone
      by_cases hfull : (s.base.regTail + 1) % s.base.table.length =
          (s.base.mirrorHead + 1) % s.base.table.length
      · rw [if_pos hfull] at had
        have hrec : s.receive hwHead hwDesc =
            some (none,
              ⟨⟨s.base.table, s.base.regTail,
                (s.base.mirrorHead + 1) % s.base.table.length,
                s.base.mirrorTail⟩,
               s.mete_ls, s.pkt_size, s.alloc_next + 1⟩) := by
          simp only [RxRing.receive, hga, hdone, Bool.false_eq_true,
            if_false, had]
        refine ⟨recv_elim hrec _ ?_, recv_elim_some hrec _ ?_, ?_,
          recv_elim hrec _ ?_⟩
        · simp [hq, hdone]
        · simp
        · intro _ hd
          rw [hdone] at hd
          exact absurd hd (by simp)
        · refine ⟨rfl, AdvRxDescRead.new_hi_zero _ _,
            AdvRxDescRead.new_not_done _ _, ?_⟩
          rw [if_neg hq, if_pos hfull]
          exact ⟨rfl, rfl, by simp⟩
      · rw [if_neg hfull] at had
        have hrec : s.receive hwHead hwDesc =
            some (none,
              ⟨⟨s.base.table.set s.base.regTail
                  (AdvRxDescRead.new
                    (Pkt.bus_addr ⟨s.alloc_next, s.pkt_size, true⟩) 0 false),
                (s.base.regTail + 1) % s.base.table.length,
                (s.base.mirrorHead + 1) % s.base.table.length,
                s.base.mirrorTail⟩,
               s.mete_ls.set s.base.regTail
                 (some ⟨s.alloc_next, s.pkt_size, true⟩),
               s.pkt_size, s.alloc_next + 1⟩) := by
          simp only [RxRing.receive, hga, hdone, Bool.false_eq_true,
            if_false, had]
          rw [if_pos (by omega : s.base.regTail < s.mete_ls.length)]
        refine ⟨recv_elim hrec _ ?_, recv_elim_some hrec _ ?_, ?_,
          recv_elim hrec _ ?_⟩
        · simp [hq, hdone]
        · simp
        · intro _ hd
          rw [hdone] at hd
          exact absurd hd (by simp)
        · refine ⟨rfl, AdvRxDescRead.new_hi_zero _ _,
            AdvRxDescRead.new_not_done _ _, ?_⟩
          rw [if_neg hq, if_neg hfull]
          exact ⟨rfl, rfl, by simp⟩

/-- Witness for C4: a concrete 2-slot receive ring with one posted buffer,
a head advance over it, and a DD-set write-back; the call returns that
buffer, empties its metadata slot, and reposts a fresh buffer. -/
theorem rx_receive_spec_witness :
    (0 < (RxRing.mk ⟨[⟨0, 0⟩, ⟨0, 0⟩], 1, 0, 0⟩ [some ⟨0, 64, true⟩, none]
        64 1).base.table.length ∧
      (RxRing.mk ⟨[⟨0, 0⟩, ⟨0, 0⟩], 1, 0, 0⟩ [some ⟨0, 64, true⟩, none]
        64 1).base.mirrorHead <
        (RxRing.mk ⟨[⟨0, 0⟩, ⟨0, 0⟩], 1, 0, 0⟩ [some ⟨0, 64, true⟩, none]
          64 1).base.table.length) ∧
    ([some (⟨0, 64, true⟩ : Pkt), none][(0 : Nat)]? = some (some ⟨0, 64, true⟩) ∧
      [none, some (⟨1, 64, true⟩ : Pkt)][(0 : Nat)]? = some none) := by
  constructor
  · exact ⟨by decide, by decide⟩
  · exact (rx_receive_spec
      ⟨⟨[⟨0, 0⟩, ⟨0, 0⟩], 1, 0, 0⟩, [some ⟨0, 64, true⟩, none], 64, 1⟩ 1
      (fun _ => ⟨0, 1⟩) (by decide) (by decide) (by decide) (by decide)).2.1
      ⟨0, 64, true⟩
      ⟨⟨[⟨0, 0⟩, ⟨2, 0⟩], 0, 1, 0⟩, [none, some ⟨1, 64, true⟩], 64, 2⟩
      (by decide)

/-! ## Traces of `receive()` calls

An rx trace supplies, per call, the head-register read and the DMA view of
the descriptor table for that call. -/

/-- Run a trace of `receive()` calls, collecting the returned packets and a
snapshot of the metadata table after each call. -/
def rxRun (s : RxRing) : List (Nat × (Nat → RxDescBits)) →
    Option (RxRing × List Pkt × List (List (Option Pkt)))
  | [] => some (s, [], [])
  | (h, hd) :: ops =>
    match s.receive h hd with
    | none => none
    | some (res, s') =>
      match rxRun s' ops with
      | none => none
      | some (s'', outs, snaps) =>
        some (s'', res.toList ++ outs, s'.mete_ls :: snaps)

/-- Well-behaved hardware for one `receive()` call: the head read is an
in-range slot index that has not advanced past the posted region, and if it
advanced at all then the descriptor at the consumer mirror reads back with
its Descriptor-Done bit set (the device completes the write-back of a slot
before the head moves past it). -/
def rxOpOk (s : RxRing) (h : Nat) (hd : Nat → RxDescBits) : Bool :=
  decide (h < s.base.table.length) &&
    decide (ringDist s.base.table.length s.base.mirrorHead h ≤
      ringDist s.base.table.length s.base.mirrorHead s.base.regTail) &&
    (h == s.base.mirrorHead || (hd s.base.mirrorHead).is_done)

/-- Well-behaved hardware along an rx trace. -/
def rxValid (s : RxRing) : List (Nat × (Nat → RxDescBits)) → Bool
  | [] => true
  | (h, hd) :: ops =>
    rxOpOk s h hd &&
      match s.receive h hd with
      | none => true
      | some (_, s') => rxValid s' ops

/-- Reachability invariant of a receive ring: positions in range, the
metadata table sized to the ring, a metadata entry populated exactly for
the slots between the consumer mirror and the tail (the posted window),
every stored packet allocated before the current counter, and distinct
slots holding distinct packet instances. -/
structure RxInvP (s : RxRing) : Prop where
  npos : 0 < s.base.table.length
  hm : s.base.mirrorHead < s.base.table.length
  ht : s.base.regTail < s.base.table.length
  hlen : s.mete_ls.length = s.base.table.length
  window : ∀ i, i < s.base.table.length →
    ((∃ p, s.mete_ls[i]? = some (some p)) ↔
      ringDist s.base.table.length s.base.mirrorHead i <
        ringDist s.base.table.length s.base.mirrorHead s.base.regTail)
  idslt : ∀ (i : Nat) (p : Pkt), s.mete_ls[i]? = some (some p) →
    p.id < s.alloc_next
  idsnd : ∀ (i j : Nat) (p q : Pkt), i ≠ j → s.mete_ls[i]? = some (some p) →
    s.mete_ls[j]? = some (some q) → p.id ≠ q.id

/-- The window predicate after posting a fresh buffer at the tail slot. -/
theorem window_add (n mh tail : Nat) (meta : List (Option Pkt)) (req : Pkt)
    (hn : 0 < n) (hm : mh < n) (ht : tail < n) (hlen : meta.length = n)
    (hfull : ringDist n mh tail < n - 1)
    (hw : ∀ i, i < n → ((∃ p, meta[i]? = some (some p)) ↔
      ringDist n mh i < ringDist n mh tail)) :
    ∀ i, i < n → ((∃ p, (meta.set tail (some req))[i]? = some (some p)) ↔
      ringDist n mh i < ringDist n mh tail + 1) := by
  intro i hi
  by_cases hit : tail = i
  · subst hit
    rw [List.getElem?_set_self (by omega)]
    constructor
    · intro _
      omega
    · intro _
      exact ⟨req, rfl⟩
  · rw [List.getElem?_set_ne hit]
    rw [hw i hi]
    have hne : ringDist n mh i ≠ ringDist n mh tail :=
      fun h => hit (ringDist_inj n mh tail i hm ht hi h.symm)
    omega

/-- The window predicate after harvesting the slot at the consumer mirror. -/
theorem window_take (n mh tail : Nat) (meta : List (Option Pkt))
    (hn : 0 < n) (hm : mh < n) (ht : tail < n) (hlen : meta.length = n)
    (hpos : 1 ≤ ringDist n mh tail)
    (hw : ∀ i, i < n → ((∃ p, meta[i]? = some (some p)) ↔
      ringDist n mh i < ringDist n mh tail)) :
    ∀ i, i < n → ((∃ p, (meta.set mh none)[i]? = some (some p)) ↔
      ringDist n ((mh + 1) % n) i < ringDist n mh tail - 1) := by
  intro i hi
  by_cases hit : mh = i
  · subst hit
    rw [List.getElem?_set_self (by omega)]
    rw [ringDist_succ_left_self n mh hn hm]
    have := ringDist_lt n mh tail hn
    constructor
    · rintro ⟨p, hp⟩
      exact absurd hp (by simp)
    · intro h
      omega
  · rw [List.getElem?_set_ne hit]
    rw [hw i hi]
    have hne : 1 ≤ ringDist n mh i := by
      have h0 : ringDist n mh i ≠ 0 :=
        fun h => hit ((ringDist_eq_zero_iff n mh i hm hi).mp h)
      omega
    rw [ringDist_succ_left n mh i hm hi hne]
    omega

/-- One well-behaved `receive()` call from an invariant state: it completes
without panicking, preserves the invariant, advances the allocation counter
by one; a returned packet was stored in the metadata table, is absent from
the new table, and its identity is older than every fresh allocation; new
table entries are persisted old ones or the fresh allocation; and no slot
changes from one packet directly to a different one. -/
theorem rx_receive_step (s : RxRing) (h : Nat) (hd : Nat → RxDescBits)
    (hI : RxInvP s) (hok : rxOpOk s h hd = true) :
    ∃ res s', s.receive h hd = some (res, s') ∧ RxInvP s' ∧
      s'.base.table.length = s.base.table.length ∧
      s'.alloc_next = s.alloc_next + 1 ∧
      (∀ q : Pkt, res = some q → q.id < s.alloc_next ∧
        (∃ i : Nat, s.mete_ls[i]? = some (some q)) ∧
        (∀ (i : Nat) (p : Pkt), s'.mete_ls[i]? = some (some p) →
          p.id ≠ q.id)) ∧
      (∀ (i : Nat) (p : Pkt), s'.mete_ls[i]? = some (some p) →
        s.mete_ls[i]? = some (some p) ∨ p.id = s.alloc_next) ∧
      (∀ (i : Nat) (p q : Pkt), s.mete_ls[i]? = some (some p) →
        s'.mete_ls[i]? = some (some q) → p = q) := by
  obtain ⟨hn, hm, ht, hlen, hw, hidl, hidn⟩ := hI
  simp only [rxOpOk, Bool.and_eq_true, decide_eq_true_eq, Bool.or_eq_true,
    beq_iff_eq] at hok
  obtain ⟨⟨hhlt, hdist⟩, hdd⟩ := hok
  have hga := s.base.get_available_eq h hd hm
  by_cases hq : h = s.base.mirrorHead
  · rw [if_pos hq] at hga
    have had := s.base.add_desc_eq
      (AdvRxDescRead.new (Pkt.bus_addr ⟨s.alloc_next, s.pkt_size, true⟩) 0
        false) hn ht
    by_cases hfull :
        (s.base.regTail + 1) % s.base.table.length = s.base.mirrorHead
    · rw [if_pos hfull] at had
      refine ⟨none, ⟨s.base, s.mete_ls, s.pkt_size, s.alloc_next + 1⟩, ?_,
        ?_, rfl, rfl, ?_, ?_, ?_⟩
      · simp only [RxRing.receive, hga, had]
      · exact ⟨hn, hm, ht, hlen, hw,
          fun i p hp => Nat.lt_succ_of_lt (hidl i p hp), hidn⟩
      · intro q hq'
        exact absurd hq' (by simp)
      · intro i p hp
        exact Or.inl hp
      · intro i p q hp hq'
        rw [hp] at hq'
        exact Option.some.inj (Option.some.inj hq')
    · rw [if_neg hfull] at had
      have hdlt : ringDist s.base.table.length s.base.mirrorHead
          s.base.regTail < s.base.table.length - 1 := by
        have h1 := ringDist_lt s.base.table.length s.base.mirrorHead
          s.base.regTail hn
        have h2 := (succ_eq_iff_ringDist_full s.base.table.length
          s.base.mirrorHead s.base.regTail hn hm ht).not.mp hfull
        omega
      refine ⟨none,
        ⟨⟨s.base.table.set s.base.regTail
            (AdvRxDescRead.new
              (Pkt.bus_addr ⟨s.alloc_next, s.pkt_size, true⟩) 0 false),
          (s.base.regTail + 1) % s.base.table.length,
          s.base.mirrorHead, s.base.mirrorTail⟩,
         s.mete_ls.set s.base.regTail (some ⟨s.alloc_next, s.pkt_size, true⟩),
         s.pkt_size, s.alloc_next + 1⟩, ?_, ?_, by simp, rfl, ?_, ?_, ?_⟩
      · simp only [RxRing.receive, hga, had]
        rw [if_pos (by omega : s.base.regTail < s.mete_ls.length)]
      · refine ⟨by simpa using hn, by simpa using hm,
          by simpa using Nat.mod_lt _ hn, by simp [hlen], ?_, ?_, ?_⟩
        · intro i hi
          simp only [List.length_set] at hi ⊢
          rw [ringDist_succ_right _ _ _ hn hm ht hdlt]
          exact window_add _ _ _ s.mete_ls _ hn hm ht hlen hdlt hw i hi
        · intro i p hp
          by_cases hti : s.base.regTail = i
          · subst hti
            rw [List.getElem?_set_self (by omega)] at hp
            obtain rfl := Option.some.inj (Option.some.inj hp)
            exact Nat.lt_succ_self _
          · rw [List.getElem?_set_ne hti] at hp
            exact Nat.lt_succ_of_lt (hidl i p hp)
        · intro i j p q hij hp hq'
          by_cases hti : s.base.regTail = i
          · subst hti
            rw [List.getElem?_set_self (by omega)] at hp
            rw [List.getElem?_set_ne (by omega : s.base.regTail ≠ j)] at hq'
            obtain rfl := Option.some.inj (Option.some.inj hp)
            have hq2 := hidl j q hq'
            show s.alloc_next ≠ q.id
            omega
          · rw [List.getElem?_set_ne hti] at hp
            by_cases htj : s.base.regTail = j
            · subst htj
              rw [List.getElem?_set_self (by omega)] at hq'
              obtain rfl := Option.some.inj (Option.some.inj hq')
              have hp2 := hidl i p hp
              show p.id ≠ s.alloc_next
              omega
            · rw [List.getElem?_set_ne htj] at hq'
              exact hidn i j p q hij hp hq'
      · intro q hq'
        exact absurd hq' (by simp)
      · intro i p hp
        by_cases hti : s.base.regTail = i
        · subst hti
          rw [List.getElem?_set_self (by omega)] at hp
          obtain rfl := Option.some.inj (Option.some.inj hp)
          exact Or.inr rfl
        · rw [List.getElem?_set_ne hti] at hp
          exact Or.inl hp
      · intro i p q hp hq'
        by_cases hti : s.base.regTail = i
        · subst hti
          exact absurd ((hw s.base.regTail ht).mp ⟨p, hp⟩) (by omega)
        · rw [List.getElem?_set_ne hti] at hq'
          rw [hp] at hq'
          exact Option.some.inj (Option.some.inj hq')
  · rw [if_neg hq] at hga
    have hdd' : (hd s.base.mirrorHead).is_done = true := by
      rcases hdd with h1 | h1
      · exact absurd h1 hq
      · exact h1
    have hpos : 1 ≤ ringDist s.base.table.length s.base.mirrorHead
        s.base.regTail := by
      have h0 : ringDist s.base.table.length s.base.mirrorHead h ≠ 0 :=
        fun hx =>
          hq ((ringDist_eq_zero_iff _ _ _ hm hhlt).mp hx).symm
      omega
    obtain ⟨pkt, hmv⟩ : ∃ p, s.mete_ls[s.base.mirrorHead]? = some (some p) :=
      (hw s.base.mirrorHead hm).mpr (by rw [ringDist_self _ _ hm]; omega)
    have hmb : (s.base.mirrorHead + 1) % s.base.table.length <
        s.base.table.length := Nat.mod_lt _ hn
    have had := RingState.add_desc_eq
      ⟨s.base.table, s.base.regTail,
        (s.base.mirrorHead + 1) % s.base.table.length, s.base.mirrorTail⟩
      (AdvRxDescRead.new (Pkt.bus_addr ⟨s.alloc_next, s.pkt_size, true⟩) 0
        false) hn ht
    have hdtake : ringDist s.base.table.length
        ((s.base.mirrorHead + 1) % s.base.table.length) s.base.regTail =
        ringDist s.base.table.length s.base.mirrorHead s.base.regTail - 1 :=
      ringDist_succ_left _ _ _ hm ht hpos
    by_cases hfull : (s.base.regTail + 1) % s.base.table.length =
        (s.base.mirrorHead + 1) % s.base.table.length
    · rw [if_pos hfull] at had
      refine ⟨some pkt,
        ⟨⟨s.base.table, s.base.regTail,
          (s.base.mirrorHead + 1) % s.base.table.length, s.base.mirrorTail⟩,
         s.mete_ls.set s.base.mirrorHead none, s.pkt_size,
         s.alloc_next + 1⟩, ?_, ?_, rfl, rfl, ?_, ?_, ?_⟩
      · simp only [RxRing.receive, hga, hdd', if_true, hmv, had]
      · refine ⟨hn, hmb, ht, by simp [hlen], ?_, ?_, ?_⟩
        · intro i hi
          simp only [List.length_set] at hi
          rw [hdtake]
          exact window_take _ _ _ s.mete_ls hn hm ht hlen hpos hw i hi
        · intro i p hp
          by_cases hti : s.base.mirrorHead = i
          · subst hti
            rw [List.getElem?_set_self (by omega)] at hp
            exact absurd (Option.some.inj hp) (by simp)
          · rw [List.getElem?_set_ne hti] at hp
            exact Nat.lt_succ_of_lt (hidl i p hp)
        · intro i j p q hij hp hq'
          by_cases hti : s.base.mirrorHead = i
          · subst hti
            rw [List.getElem?_set_self (by omega)] at hp
            exact absurd (Option.some.inj hp) (by simp)
          · rw [List.getElem?_set_ne hti] at hp
            by_cases htj : s.base.mirrorHead = j
            · subst htj
              rw [List.getElem?_set_self (by omega)] at hq'
              exact absurd (Option.some.inj hq') (by simp)
            · rw [List.getElem?_set_ne htj] at hq'
              exact hidn i j p q hij hp hq'
      · intro q hq'
        have hqp : pkt = q := Option.some.inj hq'
        subst hqp
        refine ⟨hidl _ _ hmv, ⟨_, hmv⟩, ?_⟩
        intro i p hp
        by_cases hti : s.base.mirrorHead = i
        · subst hti
          rw [List.getElem?_set_self (by omega)] at hp
          exact absurd (Option.some.inj hp) (by simp)
        · rw [List.getElem?_set_ne hti] at hp
          exact hidn i s.base.mirrorHead p pkt (fun hx => hti hx.symm) hp hmv
      · intro i p hp
        by_cases hti : s.base.mirrorHead = i
        · subst hti
          rw [List.getElem?_set_self (by omega)] at hp
          exact absurd (Option.some.inj hp) (by simp)
        · rw [List.getElem?_set_ne hti] at hp
          exact Or.inl hp
      · intro i p q hp hq'
        by_cases hti : s.base.mirrorHead = i
        · subst hti
          rw [List.getElem?_set_self (by omega)] at hq'
          exact absurd (Option.some.inj hq') (by simp)
        · rw [List.getElem?_set_ne hti] at hq'
          rw [hp] at hq'
          exact Option.some.inj (Option.some.inj hq')
    · rw [if_neg hfull] at had
      have htm : s.base.regTail ≠ s.base.mirrorHead := by
        intro hx
        exact hfull (by rw [hx])
      have hdlt2 : ringDist s.base.table.length
          ((s.base.mirrorHead + 1) % s.base.table.length) s.base.regTail <
          s.base.table.length - 1 := by
        have := ringDist_lt s.base.table.length s.base.mirrorHead
          s.base.regTail hn
        omega
      have hwtake := window_take _ _ _ s.mete_ls hn hm ht hlen hpos hw
      refine ⟨some pkt,
        ⟨⟨s.base.table.set s.base.regTail
            (AdvRxDescRead.new
              (Pkt.bus_addr ⟨s.alloc_next, s.pkt_size, true⟩) 0 false),
          (s.base.regTail + 1) % s.base.table.length,
          (s.base.mirrorHead + 1) % s.base.table.length,
          s.base.mirrorTail⟩,
         (s.mete_ls.set s.base.mirrorHead none).set s.base.regTail
           (some ⟨s.alloc_next, s.pkt_size, true⟩),
         s.pkt_size, s.alloc_next + 1⟩, ?_, ?_, by simp, rfl, ?_, ?_, ?_⟩
      · simp only [RxRing.receive, hga, hdd', if_true, hmv, had]
        rw [if_pos (by simp only [List.length_set]; omega :
          s.base.regTail < (s.mete_ls.set s.base.mirrorHead none).length)]
      · refine ⟨by simpa using hn, by simpa using hmb,
          by simpa using Nat.mod_lt _ hn, by simp [hlen], ?_, ?_, ?_⟩
        · intro i hi
          simp only [List.length_set] at hi ⊢
          rw [ringDist_succ_right _ _ _ hn hmb ht hdlt2]
          refine window_add _ _ _ (s.mete_ls.set s.base.mirrorHead none) _
            hn hmb ht (by simp [hlen]) hdlt2 ?_ i hi
          intro j hj
          rw [hdtake]
          exact hwtake j hj
        · intro i p hp
          by_cases hti : s.base.regTail = i
          · subst hti
            rw [List.getElem?_set_self
              (by simp only [List.length_set]; omega)] at hp
            obtain rfl := Option.some.inj (Option.some.inj hp)
            exact Nat.lt_succ_self _
          · rw [List.getElem?_set_ne hti] at hp
            by_cases hmi : s.base.mirrorHead = i
            · subst hmi
              rw [List.getElem?_set_self (by omega)] at hp
              exact absurd (Option.some.inj hp) (by simp)
            · rw [List.getElem?_set_ne hmi] at hp
              exact Nat.lt_succ_of_lt (hidl i p hp)
        · intro i j p q hij hp hq'
          by_cases hti : s.base.regTail = i
          · subst hti
            rw [List.getElem?_set_self
              (by simp only [List.length_set]; omega)] at hp
            obtain rfl := Option.some.inj (Option.some.inj hp)
            rw [List.getElem?_set_ne (by omega : s.base.regTail ≠ j)] at hq'
            by_cases hmj : s.base.mirrorHead = j
            · subst hmj
              rw [List.getElem?_set_self (by omega)] at hq'
              exact absurd (Option.some.inj hq') (by simp)
            · rw [List.getElem?_set_ne hmj] at hq'
              have hq2 := hidl j q hq'
              show s.alloc_next ≠ q.id
              omega
          · rw [List.getElem?_set_ne hti] at hp
            by_cases htj : s.base.regTail = j
            · subst htj
              rw [List.getElem?_set_self
                (by simp only [List.length_set]; omega)] at hq'
              obtain rfl := Option.some.inj (Option.some.inj hq')
              by_cases hmi : s.base.mirrorHead = i
              · subst hmi
                rw [List.getElem?_set_self (by omega)] at hp
                exact absurd (Option.some.inj hp) (by simp)
              · rw [List.getElem?_set_ne hmi] at hp
                have hp2 := hidl i p hp
                show p.id ≠ s.alloc_next
                omega
            · rw [List.getElem?_set_ne htj] at hq'
              by_cases hmi : s.base.mirrorHead = i
              · subst hmi
                rw [List.getElem?_set_self (by omega)] at hp
                exact absurd (Option.some.inj hp) (by simp)
              · rw [List.getElem?_set_ne hmi] at hp
                by_cases hmj : s.base.mirrorHead = j
                · subst hmj
                  rw [List.getElem?_set_self (by omega)] at hq'
                  exact absurd (Option.some.inj hq') (by simp)
                · rw [List.getElem?_set_ne hmj] at hq'
                  exact hidn i j p q hij hp hq'
      · intro q hq'
        have hqp : pkt = q := Option.some.inj hq'
        subst hqp
        refine ⟨hidl _ _ hmv, ⟨_, hmv⟩, ?_⟩
        intro i p hp
        by_cases hti : s.base.regTail = i
        · subst hti
          rw [List.getElem?_set_self
            (by simp only [List.length_set]; omega)] at hp
          obtain rfl := Option.some.inj (Option.some.inj hp)
          have hlt := hidl _ _ hmv
          show s.alloc_next ≠ pkt.id
          omega
        · rw [List.getElem?_set_ne hti] at hp
          by_cases hmi : s.base.mirrorHead = i
          · subst hmi
            rw [List.getElem?_set_self (by omega)] at hp
            exact absurd (Option.some.inj hp) (by simp)
          · rw [List.getElem?_set_ne hmi] at hp
            exact hidn i s.base.mirrorHead p pkt (fun hx => hmi hx.symm) hp
              hmv
      · intro i p hp
        by_cases hti : s.base.regTail = i
        · subst hti
          rw [List.getElem?_set_self
            (by simp only [List.length_set]; omega)] at hp
          obtain rfl := Option.some.inj (Option.some.inj hp)
          exact Or.inr rfl
        · rw [List.getElem?_set_ne hti] at hp
          by_cases hmi : s.base.mirrorHead = i
          · subst hmi
            rw [List.getElem?_set_self (by omega)] at hp
            exact absurd (Option.some.inj hp) (by simp)
          · rw [List.getElem?_set_ne hmi] at hp
            exact Or.inl hp
      · intro i p q hp hq'
        by_cases hti : s.base.regTail = i
        · subst hti
          exact absurd ((hw s.base.regTail ht).mp ⟨p, hp⟩) (by omega)
        · rw [List.getElem?_set_ne hti] at hq'
          by_cases hmi : s.base.mirrorHead = i
          · subst hmi
            rw [List.getElem?_set_self (by omega)] at hq'
            exact absurd (Option.some.inj hq') (by simp)
          · rw [List.getElem?_set_ne hmi] at hq'
            rw [hp] at hq'
            exact Option.some.inj (Option.some.inj hq')

/-- Under the invariant, the tail slot of the metadata table is empty, so
at most `N - 1` buffers are posted simultaneously. -/
theorem countSome_le_of_inv (s : RxRing) (hI : RxInvP s) :
    s.mete_ls.countP (fun o => o.isSome) ≤ s.base.table.length - 1 := by
  obtain ⟨hn, hm, ht, hlen, hw, _, _⟩ := hI
  have hbd : s.base.regTail < s.mete_ls.length := by omega
  have hnone : s.mete_ls[s.base.regTail]? = some none := by
    obtain ⟨v, hv⟩ : ∃ v, s.mete_ls[s.base.regTail]? = some v := by
      rw [List.getElem?_eq_getElem hbd]
      exact ⟨_, rfl⟩
    rcases v with _ | p
    · exact hv
    · exact absurd ((hw s.base.regTail ht).mp ⟨p, hv⟩) (by omega)
  have hmem : (none : Option Pkt) ∈ s.mete_ls := List.getElem?_mem hnone
  have h1 : s.mete_ls.countP (fun o => o.isSome) ≠ s.mete_ls.length := by
    intro hx
    have := List.countP_eq_length.mp hx _ hmem
    simp at this
  have h2 := List.countP_le_length (fun o => o.isSome) (l := s.mete_ls)
  omega

/-- Running a well-behaved rx trace from an invariant state: no call
panics; the invariant holds throughout; every returned packet came from
the metadata table (or a fresh allocation of a later call), is gone from
the final table, and is returned only once; metadata entries trace back to
old entries or fresh allocations; consecutive metadata snapshots never
overwrite one packet with a different one; and every snapshot holds at
most `N - 1` posted buffers. -/
theorem rxRun_spec (ops : List (Nat × (Nat → RxDescBits))) (s : RxRing)
    (hI : RxInvP s) (hv : rxValid s ops = true) :
    ∃ s' outs snaps, rxRun s ops = some (s', outs, snaps) ∧ RxInvP s' ∧
      s'.base.table.length = s.base.table.length ∧
      s.alloc_next ≤ s'.alloc_next ∧
      (∀ q ∈ outs, q.id < s'.alloc_next ∧
        (∀ (i : Nat) (p : Pkt), s'.mete_ls[i]? = some (some p) →
          p.id ≠ q.id) ∧
        ((∃ (i : Nat) (p : Pkt), s.mete_ls[i]? = some (some p) ∧
          p.id = q.id) ∨ s.alloc_next ≤ q.id)) ∧
      (∀ (i : Nat) (p : Pkt), s'.mete_ls[i]? = some (some p) →
        (∃ (j : Nat) (r : Pkt), s.mete_ls[j]? = some (some r) ∧
          r.id = p.id) ∨ s.alloc_next ≤ p.id) ∧
      (outs.map Pkt.id).Nodup ∧
      List.Chain' (fun m m' => ∀ (i : Nat) (p q : Pkt),
        m[i]? = some (some p) → m'[i]? = some (some q) → p = q)
        (s.mete_ls :: snaps) ∧
      (∀ m ∈ snaps,
        m.countP (fun o => o.isSome) ≤ s.base.table.length - 1) := by
  induction ops generalizing s with
  | nil =>
    refine ⟨s, [], [], rfl, hI, rfl, le_refl _, by simp, ?_, by simp,
      List.chain'_singleton _, by simp⟩
    intro i p hp
    exact Or.inl ⟨i, p, hp, rfl⟩
  | cons op ops ih =>
    obtain ⟨h, hd⟩ := op
    simp only [rxValid, Bool.and_eq_true] at hv
    obtain ⟨hok, hv2⟩ := hv
    obtain ⟨res, s1, hrec, hI1, hlen1, halloc1, hout1, hpers1, hcyc1⟩ :=
      rx_receive_step s h hd hI hok
    rw [hrec] at hv2
    have hv3 : rxValid s1 ops = true := hv2
    obtain ⟨s2, outs2, snaps2, hrun2, hI2, hlen2, halloc2, hout2, hpers2,
      hnd2, hch2, hcnt2⟩ := ih s1 hI1 hv3
    refine ⟨s2, res.toList ++ outs2, s1.mete_ls :: snaps2, ?_, hI2,
      hlen2.trans hlen1, by omega, ?_, ?_, ?_, ?_, ?_⟩
    · simp only [rxRun, hrec, hrun2]
    · intro q hq
      rcases List.mem_append.mp hq with hq | hq
      · -- the packet returned by this call
        have hres : res = some q := by
          cases res with
          | none => simp at hq
          | some r =>
            simp only [Option.toList_some, List.mem_singleton] at hq
            rw [hq]
        obtain ⟨hqlt, ⟨i0, hq0⟩, hqrm⟩ := hout1 q hres
        refine ⟨by omega, ?_, Or.inl ⟨i0, q, hq0, rfl⟩⟩
        intro i p hp
        rcases hpers2 i p hp with ⟨j, r, hr, hrid⟩ | hge
        · rw [← hrid]
          exact hqrm j r hr
        · omega
      · obtain ⟨hlt2, hrm2, horig2⟩ := hout2 q hq
        refine ⟨hlt2, hrm2, ?_⟩
        rcases horig2 with ⟨i, p, hp, hpid⟩ | hge
        · rcases hpers1 i p hp with hold | hfresh
          · exact Or.inl ⟨i, p, hold, hpid⟩
          · right
            omega
        · right
          omega
    · intro i p hp
      rcases hpers2 i p hp with ⟨j, r, hr, hrid⟩ | hge
      · rcases hpers1 j r hr with hold | hfresh
        · exact Or.inl ⟨j, r, hold, hrid⟩
        · right
          omega
      · right
        omega
    · cases res with
      | none => simpa using hnd2
      | some q =>
        simp only [Option.toList_some, List.singleton_append, List.map_cons]
        rw [List.nodup_cons]
        refine ⟨?_, hnd2⟩
        intro hmem
        obtain ⟨q', hq', hqid⟩ := List.mem_map.mp hmem
        obtain ⟨hqlt, ⟨i0, hq0⟩, hqrm⟩ := hout1 q rfl
        obtain ⟨_, _, horig⟩ := hout2 q' hq'
        rcases horig with ⟨i, p, hp, hpid⟩ | hge
        · exact hqrm i p hp (by omega)
        · omega
    · exact List.chain'_cons.mpr ⟨hcyc1, hch2⟩
    · intro m hm
      rcases List.mem_cons.mp hm with rfl | hm
      · have := countSome_le_of_inv s1 hI1
        omega
      · have := hcnt2 m hm
        omega

/-- Counterexample to C6 as stated.  On a 2-slot receive ring, the hardware
head advances only over posted slots, yet one advance is observed before
the slot's Descriptor-Done write-back lands (the race §4.3 of the spec
itself warns about).  `receive()` then skips the slot while its metadata
entry is still populated, and two calls later the skipped entry is
overwritten `Some pkt0 → Some pkt2` with no intervening `None`; the
snapshot after the second call also holds 2 = N posted buffers, exceeding
N − 1. -/
theorem rx_lifecycle_cex :
    rxRun ⟨⟨[⟨0, 0⟩, ⟨0, 0⟩], 0, 0, 0⟩, [none, none], 64, 0⟩
        [(0, fun _ => ⟨0, 0⟩), (1, fun _ => ⟨0, 0⟩), (0, fun _ => ⟨0, 1⟩)] =
      some (⟨⟨[⟨4, 0⟩, ⟨2, 0⟩], 1, 0, 0⟩,
        [some ⟨2, 64, true⟩, none], 64, 3⟩,
        [⟨1, 64, true⟩],
        [[some ⟨0, 64, true⟩, none],
         [some ⟨0, 64, true⟩, some ⟨1, 64, true⟩],
         [some ⟨2, 64, true⟩, none]]) ∧
    ([some (⟨0, 64, true⟩ : Pkt), some ⟨1, 64, true⟩].countP
      (fun o => o.isSome) = 2) ∧
    ([some (⟨0, 64, true⟩ : Pkt), some ⟨1, 64, true⟩][(0 : Nat)]? =
      some (some ⟨0, 64, true⟩)) ∧
    ([some (⟨2, 64, true⟩ : Pkt), none][(0 : Nat)]? =
      some (some ⟨2, 64, true⟩)) ∧
    (⟨0, 64, true⟩ : Pkt) ≠ ⟨2, 64, true⟩ := by
  refine ⟨by decide, by decide, by decide, by decide, by decide⟩

/-- C6 (amended).  For every sequence of `receive()` calls on a receive
ring satisfying the reachability invariant, provided the hardware head
only advances over posted slots and a slot it has advanced past reads back
with Descriptor-Done set (`rxValid`): no call panics, each metadata slot
cycles strictly `None → Some → None` (no snapshot-to-snapshot overwrite of
one packet by a different one), `receive()` never returns the same packet
instance twice, and the table never holds more than `N - 1` posted buffers
after any call. -/
theorem rx_lifecycle_spec (s : RxRing) (ops : List (Nat × (Nat → RxDescBits)))
    (hI : RxInvP s) (hv : rxValid s ops = true) :
    ∃ s' outs snaps, rxRun s ops = some (s', outs, snaps) ∧
      (outs.map Pkt.id).Nodup ∧
      List.Chain' (fun m m' => ∀ (i : Nat) (p q : Pkt),
        m[i]? = some (some p) → m'[i]? = some (some q) → p = q)
        (s.mete_ls :: snaps) ∧
      ∀ m ∈ snaps,
        m.countP (fun o => o.isSome) ≤ s.base.table.length - 1 := by
  obtain ⟨s', outs, snaps, hrun, _, _, _, _, _, hnd, hch, hcnt⟩ :=
    rxRun_spec ops s hI hv
  exact ⟨s', outs, snaps, hrun, hnd, hch, hcnt⟩

/-- The reachability invariant holds for a freshly initialized 3-slot
receive ring (all registers and mirrors zero, metadata table empty). -/
theorem rxInvP_fresh3 :
    RxInvP ⟨⟨[⟨0, 0⟩, ⟨0, 0⟩, ⟨0, 0⟩], 0, 0, 0⟩, [none, none, none], 64, 0⟩ := by
  refine ⟨by decide, by decide, by decide, by decide, ?_, ?_, ?_⟩
  · intro i hi
    constructor
    · rintro ⟨p, hp⟩
      match i, hi with
      | 0, _ => simp at hp
      | 1, _ => simp at hp
      | 2, _ => simp at hp
    · intro hcon
      have hcon' : ringDist 3 0 i < 0 := hcon
      omega
  · intro i p hp
    match i with
    | 0 => simp at hp
    | 1 => simp at hp
    | 2 => simp at hp
    | (k + 3) => simp at hp
  · intro i j p q hij hp hq
    match i with
    | 0 => simp at hp
    | 1 => simp at hp
    | 2 => simp at hp
    | (k + 3) => simp at hp

/-- Witness for the amended C6 on a concrete trace: two posts on a fresh
3-slot ring under well-behaved hardware. -/
theorem rx_lifecycle_spec_witness :
    (rxValid ⟨⟨[⟨0, 0⟩, ⟨0, 0⟩, ⟨0, 0⟩], 0, 0, 0⟩, [none, none, none], 64, 0⟩
      [(0, fun _ => ⟨0, 0⟩), (0, fun _ => ⟨0, 0⟩)] = true) ∧
    (∃ s' outs snaps,
      rxRun ⟨⟨[⟨0, 0⟩, ⟨0, 0⟩, ⟨0, 0⟩], 0, 0, 0⟩, [none, none, none], 64, 0⟩
        [(0, fun _ => ⟨0, 0⟩), (0, fun _ => ⟨0, 0⟩)] =
          some (s', outs, snaps) ∧
      (outs.map Pkt.id).Nodup ∧
      List.Chain' (fun m m' => ∀ (i : Nat) (p q : Pkt),
        m[i]? = some (some p) → m'[i]? = some (some q) → p = q)
        ([none, none, none] :: snaps) ∧
      ∀ m ∈ snaps, m.countP (fun o => o.isSome) ≤ 3 - 1) := by
  refine ⟨by decide, ?_⟩
  exact rx_lifecycle_spec
    ⟨⟨[⟨0, 0⟩, ⟨0, 0⟩, ⟨0, 0⟩], 0, 0, 0⟩, [none, none, none], 64, 0⟩
    [(0, fun _ => ⟨0, 0⟩), (0, fun _ => ⟨0, 0⟩)] rxInvP_fresh3 (by decide)

/-- Witness for C1: a 3-slot ring, two posts and one harvest under
well-behaved hardware; one descriptor outstanding, so a further `add_desc`
does not report ring-full. -/
theorem ring_outstanding_spec_witness :
    (0 < (⟨[0, 0, 0], 5, 7, 9⟩ : RingState Nat).table.length ∧
      validHw (RingState.init_tail_head ⟨[0, 0, 0], 5, 7, 9⟩)
        [RingOp.add 1, RingOp.add 2, RingOp.get 1 (fun _ => 0)] = true ∧
      ringRun (RingState.init_tail_head ⟨[0, 0, 0], 5, 7, 9⟩)
        [RingOp.add 1, RingOp.add 2, RingOp.get 1 (fun _ => 0)] =
        some (⟨[1, 2, 0], 2, 1, 0⟩, 2, 1, [0, 1, 0])) ∧
    (1 ≤ 2 ∧ 2 - 1 ≤ (3 : Nat) - 1 ∧
      (RingState.add_desc ⟨[1, 2, 0], 2, 1, 0⟩ 4 =
          some (.error (), ⟨[1, 2, 0], 2, 1, 0⟩) ↔ 2 - 1 = (3 : Nat) - 1)) := by
  refine ⟨⟨by decide, by decide, by decide⟩, ?_⟩
  exact ring_outstanding_spec ⟨[0, 0, 0], 5, 7, 9⟩
    [RingOp.add 1, RingOp.add 2, RingOp.get 1 (fun _ => 0)] 4
    ⟨[1, 2, 0], 2, 1, 0⟩ 2 1 [0, 1, 0] (by decide) (by decide) (by decide)

/-- Witness for C10: same concrete trace; the run completes and every
surfaced index and both driver positions stay below the capacity. -/
theorem ring_access_bounds_spec_witness :
    (0 < (⟨[0, 0, 0], 5, 7, 9⟩ : RingState Nat).table.length ∧
      headsLt (⟨[0, 0, 0], 5, 7, 9⟩ : RingState Nat).table.length
        [RingOp.add 1, RingOp.add 2, RingOp.get 1 (fun _ => 0)] = true) ∧
    (∃ s' a g is,
      ringRun (RingState.init_tail_head ⟨[0, 0, 0], 5, 7, 9⟩)
        [RingOp.add 1, RingOp.add 2, RingOp.get 1 (fun _ => 0)] =
        some (s', a, g, is) ∧
      s'.mirrorHead < 3 ∧ s'.regTail < 3 ∧ ∀ i ∈ is, i < 3) := by
  refine ⟨⟨by decide, by decide⟩, ?_⟩
  exact ring_access_bounds_spec ⟨[0, 0, 0], 5, 7, 9⟩
    [RingOp.add 1, RingOp.add 2, RingOp.get 1 (fun _ => 0)] (by decide)
    (by decide)

/-! ## The transmit ring (`TxRing` in `src/rxtx/tx.rs`) -/

/-- An advanced transmit descriptor: the software-write view
(`TxDescRead`: `buffer_addr`, `cmd_type_len`, `olinfo_status`); the
hardware write-back view (`TxDescWriteBack`) overlays the same 16 bytes,
its `status` dword occupying the bytes of `olinfo_status`. -/
structure TxDescBits where
  buffer_addr : Nat
  cmd_type_len : Nat
  olinfo_status : Nat
deriving DecidableEq

/-- `TxAdvDescType` (descriptor-type field values `Data = 0b11`,
`Context = 0b10`, at offset 20). -/
inductive TxAdvDescType where
  | Data
  | Context

/-- The command bits of `TX_DESC_CMD_TYPE_LEN`. -/
inductive TxAdvDescCmd where
  | EOP
  | IFCS
  | IC
  | RS
  | DEXT
  | VLE
  | IDE

/-- The shifted one-bit mask each command contributes
(`TX_DESC_CMD_TYPE_LEN::CMD_*::SET.value`). -/
def txCmdVal : TxAdvDescCmd → Nat
  | .EOP => 2 ^ 24
  | .IFCS => 2 ^ 25
  | .IC => 2 ^ 26
  | .RS => 2 ^ 27
  | .DEXT => 2 ^ 29
  | .VLE => 2 ^ 30
  | .IDE => 2 ^ 31

/-- `TxDesc::new`: `LEN.val(buffer_len as u32)` masks the length to the
20-bit field, `DTYPE` is ored in at offset 20, and each listed command bit
is ored in (`tock-registers` implements `+` on field values as bitwise
or). -/
def TxDesc.new (buffer_addr : Nat) (buffer_len : Nat) (kind : TxAdvDescType)
    (cmd_ls : List TxAdvDescCmd) : TxDescBits :=
  let len_field := (buffer_len % 2 ^ 32) &&& (2 ^ 20 - 1)
  let dtype :=
    match kind with
    | .Data => 3 <<< 20
    | .Context => 2 <<< 20
  { buffer_addr := buffer_addr,
    cmd_type_len :=
      cmd_ls.foldl (fun acc c => acc ||| txCmdVal c) (len_field ||| dtype),
    olinfo_status := 0 }

/-- `TxDescWriteBack::is_done`: bit 0 (`TX_DESC_STATUS::DD`) of the
write-back `status` dword, which overlays `olinfo_status`. -/
def TxDescBits.is_done (d : TxDescBits) : Bool :=
  decide (d.olinfo_status &&& 1 ≠ 0)

/-- State of `TxRing`: the underlying ring plus the parallel metadata table
`meta_ls : Vec<Option<Pkt>>` of in-flight transmit buffers. -/
structure TxRing where
  base : RingState TxDescBits
  meta_ls : List (Option Pkt)
deriving DecidableEq

/-- `TxRing::transmit`.  First the reclamation step: if `get_available`
reports a consumed slot, `take()` the buffer stored there — dropping
(freeing) it — regardless of the descriptor's Descriptor-Done bit, which
is only read into a debug log (`expect("should have value")` panics —
`none` — on an empty entry).  Then build the software-write descriptor
with command bits EOP, RS, IFCS, DEXT and `add_desc` it; on success store
the packet at the returned slot and return `Ok(1)`; on ring-full return
`Err` (the packet is consumed either way). -/
def TxRing.transmit (s : TxRing) (p : Pkt) (hwHead : Nat)
    (hwDesc : Nat → TxDescBits) : Option (Except Unit Nat × TxRing) :=
  match s.base.get_available hwHead hwDesc with
  | none => none
  | some (avail, base1) =>
    let step2 : Option (List (Option Pkt)) :=
      match avail with
      | none => some s.meta_ls
      | some (_, idx) =>
        match s.meta_ls[idx]? with
        | some (some _) => some (s.meta_ls.set idx none)
        | _ => none
    match step2 with
    | none => none
    | some meta1 =>
      match base1.add_desc
          (TxDesc.new p.bus_addr p.len .Data [.EOP, .RS, .IFCS, .DEXT]) with
      | none => none
      | some (.ok tail, base2) =>
        if tail < meta1.length then
          some (.ok 1, ⟨base2, meta1.set tail (some p)⟩)
        else none
      | some (.error _, base2) => some (.error (), ⟨base2, meta1⟩)

/-- A successful `add_desc` wrote the descriptor at the (in-range) old
tail. -/
theorem add_desc_ok_inv {D : Type} (s : RingState D) (d : D) (t : Nat)
    (s' : RingState D) (h : s.add_desc d = some (.ok t, s')) :
    t < s.table.length ∧ t = s.regTail ∧ s'.table = s.table.set t d ∧
      s'.regTail = (t + 1) % s.table.length ∧
      s'.mirrorHead = s.mirrorHead := by
  unfold RingState.add_desc at h
  split at h
  · simp at h
  · split at h
    · simp at h
    · split at h
      · simp only [Option.some.injEq, Prod.mk.injEq, Except.ok.injEq] at h
        obtain ⟨rfl, rfl⟩ := h
        exact ⟨by assumption, rfl, rfl, rfl, rfl⟩
      · simp at h

/-- `get_available` never touches the descriptor table or the tail
register. -/
theorem get_available_some_inv {D : Type} (s : RingState D) (hwHead : Nat)
    (hwDesc : Nat → D) (r : Option (D × Nat)) (base1 : RingState D)
    (heq : s.get_available hwHead hwDesc = some (r, base1)) :
    base1.table = s.table ∧ base1.regTail = s.regTail := by
  unfold RingState.get_available at heq
  split at heq
  · simp only [Option.some.injEq, Prod.mk.injEq] at heq
    rw [← heq.2]
    exact ⟨rfl, rfl⟩
  · split at heq
    · simp only [Option.some.injEq, Prod.mk.injEq] at heq
      rw [← heq.2]
      exact ⟨rfl, rfl⟩
    · simp at heq

/-- Bitwise and distributes over or (used to read fields back out of a
packed descriptor word). -/
theorem and_lor_distrib (a b c : Nat) :
    (a ||| b) &&& c = (a &&& c) ||| (b &&& c) := by
  apply Nat.eq_of_testBit_eq
  intro i
  simp [Nat.testBit_lor, Nat.testBit_land, Bool.and_or_distrib_right]

/-- C9.  The descriptor `transmit(packet)` constructs and passes to
`add_desc` — `TxDesc::new(bus_addr, len, Data, [EOP, RS, IFCS, DEXT])` —
has the End-Of-Packet (24), Report-Status (27), Insert-FCS (25) and
Descriptor-Extension (29) command bits set, descriptor type Data
(bits 23..20 = 0b0011), buffer address equal to the packet's bus address,
and 20-bit length field equal to the buffer's length; and when `transmit`
succeeds, exactly this descriptor sits in the descriptor table at the slot
`add_desc` filled. -/
theorem tx_desc_bits_spec (p : Pkt) (s : TxRing) (hwHead : Nat)
    (hwDesc : Nat → TxDescBits) (hlen20 : p.len < 2 ^ 20) :
    ((TxDesc.new p.bus_addr p.len .Data
        [.EOP, .RS, .IFCS, .DEXT]).buffer_addr = p.bus_addr ∧
      (TxDesc.new p.bus_addr p.len .Data
        [.EOP, .RS, .IFCS, .DEXT]).cmd_type_len.testBit 24 = true ∧
      (TxDesc.new p.bus_addr p.len .Data
        [.EOP, .RS, .IFCS, .DEXT]).cmd_type_len.testBit 27 = true ∧
      (TxDesc.new p.bus_addr p.len .Data
        [.EOP, .RS, .IFCS, .DEXT]).cmd_type_len.testBit 25 = true ∧
      (TxDesc.new p.bus_addr p.len .Data
        [.EOP, .RS, .IFCS, .DEXT]).cmd_type_len.testBit 29 = true ∧
      (TxDesc.new p.bus_addr p.len .Data
        [.EOP, .RS, .IFCS, .DEXT]).cmd_type_len.testBit 20 = true ∧
      (TxDesc.new p.bus_addr p.len .Data
        [.EOP, .RS, .IFCS, .DEXT]).cmd_type_len.testBit 21 = true ∧
      (TxDesc.new p.bus_addr p.len .Data
        [.EOP, .RS, .IFCS, .DEXT]).cmd_type_len.testBit 22 = false ∧
      (TxDesc.new p.bus_addr p.len .Data
        [.EOP, .RS, .IFCS, .DEXT]).cmd_type_len.testBit 23 = false ∧
      (TxDesc.new p.bus_addr p.len .Data
        [.EOP, .RS, .IFCS, .DEXT]).cmd_type_len &&& (2 ^ 20 - 1) = p.len) ∧
    (∀ r s', s.transmit p hwHead hwDesc = some (.ok r, s') →
      ∃ t, t < s'.base.table.length ∧
        s'.base.table[t]? =
          some (TxDesc.new p.bus_addr p.len .Data [.EOP, .RS, .IFCS, .DEXT])) := by
  have hlf : (p.len % 2 ^ 32) &&& (2 ^ 20 - 1) = p.len := by
    rw [Nat.and_pow_two_sub_one_eq_mod, Nat.mod_mod_of_dvd _ (by norm_num),
      Nat.mod_eq_of_lt hlen20]
  have hcmd : (TxDesc.new p.bus_addr p.len .Data
      [.EOP, .RS, .IFCS, .DEXT]).cmd_type_len =
      ((((p.len ||| 3 <<< 20) ||| 2 ^ 24) ||| 2 ^ 27) ||| 2 ^ 25) ||| 2 ^ 29 := by
    simp only [TxDesc.new, List.foldl, txCmdVal]
    rw [hlf]
  have hlt : ∀ k, 20 ≤ k → p.len.testBit k = false := fun k hk =>
    Nat.testBit_lt_two_pow
      (lt_of_lt_of_le hlen20 (Nat.pow_le_pow_right (by norm_num) hk))
  constructor
  · refine ⟨rfl, ?_, ?_, ?_, ?_, ?_, ?_, ?_, ?_, ?_⟩
    · rw [hcmd]
      simp only [Nat.testBit_lor, hlt 24 (by norm_num)]
      decide
    · rw [hcmd]
      simp only [Nat.testBit_lor, hlt 27 (by norm_num)]
      decide
    · rw [hcmd]
      simp only [Nat.testBit_lor, hlt 25 (by norm_num)]
      decide
    · rw [hcmd]
      simp only [Nat.testBit_lor, hlt 29 (by norm_num)]
      decide
    · rw [hcmd]
      simp only [Nat.testBit_lor, hlt 20 (by norm_num)]
      decide
    · rw [hcmd]
      simp only [Nat.testBit_lor, hlt 21 (by norm_num)]
      decide
    · rw [hcmd]
      simp only [Nat.testBit_lor, hlt 22 (by norm_num)]
      decide
    · rw [hcmd]
      simp only [Nat.testBit_lor, hlt 23 (by norm_num)]
      decide
    · rw [hcmd, and_lor_distrib, and_lor_distrib, and_lor_distrib,
        and_lor_distrib, and_lor_distrib]
      simp only [Nat.and_pow_two_sub_one_eq_mod, Nat.mod_eq_of_lt hlen20]
      norm_num
      rw [show ((3 : Nat) <<< 20) % 1048576 = 0 from by decide]
      simp
  · intro r s' h
    rcases hga : s.base.get_available hwHead hwDesc with _ | ⟨avail, base1⟩
    · have hnone : s.transmit p hwHead hwDesc = none := by
        simp only [TxRing.transmit, hga]
      rw [hnone] at h
      exact absurd h (by simp)
    · have key : ∀ meta1 : List (Option Pkt),
          (match base1.add_desc (TxDesc.new p.bus_addr p.len .Data
              [.EOP, .RS, .IFCS, .DEXT]) with
            | none => none
            | some (.ok tail, base2) =>
              if tail < meta1.length then
                some (Except.ok 1, (⟨base2, meta1.set tail (some p)⟩ : TxRing))
              else none
            | some (.error _, base2) =>
              some (Except.error (), (⟨base2, meta1⟩ : TxRing))) =
            some (.ok r, s') →
          ∃ t, t < s'.base.table.length ∧
            s'.base.table[t]? =
              some (TxDesc.new p.bus_addr p.len .Data
                [.EOP, .RS, .IFCS, .DEXT]) := by
        intro meta1 hm
        rcases hadd : base1.add_desc (TxDesc.new p.bus_addr p.len .Data
            [.EOP, .RS, .IFCS, .DEXT]) with _ | ⟨r2, base2⟩
        · rw [hadd] at hm
          exact absurd (hm : (none : Option (Except Unit Nat × TxRing)) =
            some (.ok r, s')) (by simp)
        · rw [hadd] at hm
          cases r2 with
          | error e =>
            exact absurd (hm : some (Except.error (),
              (⟨base2, meta1⟩ : TxRing)) = some (.ok r, s')) (by simp)
          | ok tail =>
            obtain ⟨hb, _, htab, _, _⟩ := add_desc_ok_inv base1 _ tail base2 hadd
            have hm' : (if tail < meta1.length then
                some (Except.ok 1, (⟨base2, meta1.set tail (some p)⟩ : TxRing))
              else none) = some (.ok r, s') := hm
            split at hm'
            · simp only [Option.some.injEq, Prod.mk.injEq] at hm'
              obtain ⟨_, rfl⟩ := hm'
              refine ⟨tail, ?_, ?_⟩
              · show tail < base2.table.length
                rw [htab, List.length_set]
                exact hb
              · show base2.table[tail]? = _
                rw [htab, List.getElem?_set_self hb]
            · exact absurd hm' (by simp)
      cases avail with
      | none =>
        apply key s.meta_ls
        rw [← h]
        simp only [TxRing.transmit, hga]
      | some di =>
        obtain ⟨d0, idx⟩ := di
        rcases hml : s.meta_ls[idx]? with _ | op
        · have hnone : s.transmit p hwHead hwDesc = none := by
            simp only [TxRing.transmit, hga, hml]
          rw [hnone] at h
          exact absurd h (by simp)
        · cases op with
          | none =>
            have hnone : s.transmit p hwHead hwDesc = none := by
              simp only [TxRing.transmit, hga, hml]
            rw [hnone] at h
            exact absurd h (by simp)
          | some x =>
            apply key (s.meta_ls.set idx none)
            rw [← h]
            simp only [TxRing.transmit, hga, hml]

/-- Counterexample to C5 as stated.  A 2-slot transmit ring holds one
in-flight buffer at slot 0; the hardware head advances over it but the
descriptor reads back with Descriptor-Done still clear.  `transmit`
nevertheless takes (frees) the stored buffer — the DD bit is only logged,
never checked — so a buffer whose DD bit is not set is freed. -/
theorem tx_reclaim_cex :
    ((TxRing.transmit ⟨⟨[⟨0, 0, 0⟩, ⟨0, 0, 0⟩], 1, 0, 0⟩,
        [some ⟨0, 10, false⟩, none]⟩ ⟨1, 10, false⟩ 1
        (fun _ => ⟨0, 0, 0⟩)).map (fun r => r.2.meta_ls)) =
      some [none, some ⟨1, 10, false⟩] ∧
    TxDescBits.is_done ⟨0, 0, 0⟩ = false ∧
    [some (⟨0, 10, false⟩ : Pkt), none][(0 : Nat)]? =
      some (some ⟨0, 10, false⟩) := by
  refine ⟨by decide, by decide, by decide⟩

/-- C5 (amended).  A transmit buffer stored in the metadata table is
dropped only in `transmit()`'s reclamation step and only at the slot
`get_available` reported consumed (a hardware head advance); the
Descriptor-Done bit is read only for a debug log and does not gate the
free.  Every other stored buffer survives the call unchanged. -/
theorem tx_reclaim_spec (s : TxRing) (p : Pkt) (hwHead : Nat)
    (hwDesc : Nat → TxDescBits)
    (hn : 0 < s.base.table.length)
    (hm : s.base.mirrorHead < s.base.table.length)
    (ht : s.base.regTail < s.base.table.length)
    (hlen : s.meta_ls.length = s.base.table.length)
    (hw : ∀ i, i < s.base.table.length →
      ((∃ q : Pkt, s.meta_ls[i]? = some (some q)) ↔
        ringDist s.base.table.length s.base.mirrorHead i <
          ringDist s.base.table.length s.base.mirrorHead s.base.regTail)) :
    ∀ r s', s.transmit p hwHead hwDesc = some (r, s') →
      ∀ (i : Nat) (q : Pkt), s.meta_ls[i]? = some (some q) →
        s'.meta_ls[i]? = some (some q) ∨
          (hwHead ≠ s.base.mirrorHead ∧ i = s.base.mirrorHead) := by
  intro r s' hcall i q hq
  have hga := s.base.get_available_eq hwHead hwDesc hm
  by_cases hq0 : hwHead = s.base.mirrorHead
  · rw [if_pos hq0] at hga
    have had := s.base.add_desc_eq
      (TxDesc.new p.bus_addr p.len .Data [.EOP, .RS, .IFCS, .DEXT]) hn ht
    by_cases hfull :
        (s.base.regTail + 1) % s.base.table.length = s.base.mirrorHead
    · rw [if_pos hfull] at had
      have hrec : s.transmit p hwHead hwDesc =
          some (.error (), ⟨s.base, s.meta_ls⟩) := by
        simp only [TxRing.transmit, hga, had]
      rw [hrec] at hcall
      simp only [Option.some.injEq, Prod.mk.injEq] at hcall
      obtain ⟨_, rfl⟩ := hcall
      exact Or.inl hq
    · rw [if_neg hfull] at had
      have hrec : s.transmit p hwHead hwDesc =
          some (.ok 1,
            ⟨⟨s.base.table.set s.base.regTail
                (TxDesc.new p.bus_addr p.len .Data [.EOP, .RS, .IFCS, .DEXT]),
              (s.base.regTail + 1) % s.base.table.length,
              s.base.mirrorHead, s.base.mirrorTail⟩,
             s.meta_ls.set s.base.regTail (some p)⟩) := by
        simp only [TxRing.transmit, hga, had]
        rw [if_pos (by omega : s.base.regTail < s.meta_ls.length)]
      rw [hrec] at hcall
      simp only [Option.some.injEq, Prod.mk.injEq] at hcall
      obtain ⟨_, rfl⟩ := hcall
      left
      by_cases hti : s.base.regTail = i
      · subst hti
        exact absurd ((hw _ ht).mp ⟨q, hq⟩) (by omega)
      · show (s.meta_ls.set s.base.regTail (some p))[i]? = some (some q)
        rw [List.getElem?_set_ne hti]
        exact hq
  · rw [if_neg hq0] at hga
    have hmb : s.base.mirrorHead < s.meta_ls.length := by omega
    obtain ⟨v, hv⟩ : ∃ v, s.meta_ls[s.base.mirrorHead]? = some v := by
      rw [List.getElem?_eq_getElem hmb]
      exact ⟨_, rfl⟩
    rcases v with _ | x
    · have hnone : s.transmit p hwHead hwDesc = none := by
        simp only [TxRing.transmit, hga, hv]
      rw [hnone] at hcall
      exact absurd hcall (by simp)
    · have had := RingState.add_desc_eq
        ⟨s.base.table, s.base.regTail,
          (s.base.mirrorHead + 1) % s.base.table.length, s.base.mirrorTail⟩
        (TxDesc.new p.bus_addr p.len .Data [.EOP, .RS, .IFCS, .DEXT]) hn ht
      by_cases hfull : (s.base.regTail + 1) % s.base.table.length =
          (s.base.mirrorHead + 1) % s.base.table.length
      · rw [if_pos hfull] at had
        have hrec : s.transmit p hwHead hwDesc =
            some (.error (),
              ⟨⟨s.base.table, s.base.regTail,
                (s.base.mirrorHead + 1) % s.base.table.length,
                s.base.mirrorTail⟩,
               s.meta_ls.set s.base.mirrorHead none⟩) := by
          simp only [TxRing.transmit, hga, hv, had]
        rw [hrec] at hcall
        simp only [Option.some.injEq, Prod.mk.injEq] at hcall
        obtain ⟨_, rfl⟩ := hcall
        by_cases hmi : s.base.mirrorHead = i
        · exact Or.inr ⟨hq0, hmi.symm⟩
        · left
          show (s.meta_ls.set s.base.mirrorHead none)[i]? = some (some q)
          rw [List.getElem?_set_ne hmi]
          exact hq
      · rw [if_neg hfull] at had
        have hrec : s.transmit p hwHead hwDesc =
            some (.ok 1,
              ⟨⟨s.base.table.set s.base.regTail
                  (TxDesc.new p.bus_addr p.len .Data
                    [.EOP, .RS, .IFCS, .DEXT]),
                (s.base.regTail + 1) % s.base.table.length,
                (s.base.mirrorHead + 1) % s.base.table.length,
                s.base.mirrorTail⟩,
               (s.meta_ls.set s.base.mirrorHead none).set s.base.regTail
                 (some p)⟩) := by
          simp only [TxRing.transmit, hga, hv, had]
          rw [if_pos (by simp only [List.length_set]; omega :
            s.base.regTail < (s.meta_ls.set s.base.mirrorHead none).length)]
        rw [hrec] at hcall
        simp only [Option.some.injEq, Prod.mk.injEq] at hcall
        obtain ⟨_, rfl⟩ := hcall
        by_cases hmi : s.base.mirrorHead = i
        · exact Or.inr ⟨hq0, hmi.symm⟩
        · left
          by_cases hti : s.base.regTail = i
          · subst hti
            exact absurd ((hw _ ht).mp ⟨q, hq⟩) (by omega)
          · show ((s.meta_ls.set s.base.mirrorHead none).set s.base.regTail
                (some p))[i]? = some (some q)
            rw [List.getElem?_set_ne hti, List.getElem?_set_ne hmi]
            exact hq

/-- Witness for the amended C5: the counterexample configuration again;
the only entry that disappears is the one at the harvested slot. -/
theorem tx_reclaim_spec_witness :
    (0 < (⟨[⟨0, 0, 0⟩, ⟨0, 0, 0⟩], 1, 0, 0⟩ :
        RingState TxDescBits).table.length) ∧
    ([some (⟨0, 10, false⟩ : Pkt), none][(0 : Nat)]? =
        some (some ⟨0, 10, false⟩) →
      [none, some (⟨1, 10, false⟩ : Pkt)][(0 : Nat)]? =
        some (some ⟨0, 10, false⟩) ∨
        ((1 : Nat) ≠ 0 ∧ (0 : Nat) = 0)) := by
  refine ⟨by decide, ?_⟩
  intro hq
  have hwin : ∀ i, i < (⟨⟨[⟨0, 0, 0⟩, ⟨0, 0, 0⟩], 1, 0, 0⟩,
      [some ⟨0, 10, false⟩, none]⟩ : TxRing).base.table.length →
      ((∃ q : Pkt, (⟨⟨[⟨0, 0, 0⟩, ⟨0, 0, 0⟩], 1, 0, 0⟩,
          [some ⟨0, 10, false⟩, none]⟩ : TxRing).meta_ls[i]? =
          some (some q)) ↔
        ringDist 2 0 i < ringDist 2 0 1) := by
    intro i hi
    match i, hi with
    | 0, _ =>
      constructor
      · intro _
        decide
      · intro _
        exact ⟨⟨0, 10, false⟩, rfl⟩
    | 1, _ =>
      constructor
      · rintro ⟨q', hq'⟩
        simp at hq'
      · intro hcon
        have hcon' : (1 : Nat) < 1 := hcon
        omega
  exact tx_reclaim_spec
    ⟨⟨[⟨0, 0, 0⟩, ⟨0, 0, 0⟩], 1, 0, 0⟩, [some ⟨0, 10, false⟩, none]⟩
    ⟨1, 10, false⟩ 1 (fun _ => ⟨0, 0, 0⟩) (by decide) (by decide) (by decide)
    (by decide) hwin (.ok 1)
    ⟨⟨[⟨0, 0, 0⟩,
        TxDesc.new (Pkt.bus_addr ⟨1, 10, false⟩) 10 .Data
          [.EOP, .RS, .IFCS, .DEXT]], 0, 1, 0⟩,
      [none, some ⟨1, 10, false⟩]⟩ rfl 0 ⟨0, 10, false⟩ hq

/-- Witness for C9: a concrete 100-byte packet; its descriptor's command,
type, address and length fields are as specified. -/
theorem tx_desc_bits_spec_witness :
    ((⟨3, 100, false⟩ : Pkt).len < 2 ^ 20) ∧
    (TxDesc.new (Pkt.bus_addr ⟨3, 100, false⟩) (⟨3, 100, false⟩ : Pkt).len
        .Data [.EOP, .RS, .IFCS, .DEXT]).buffer_addr =
      Pkt.bus_addr ⟨3, 100, false⟩ := by
  refine ⟨by decide, ?_⟩
  exact (tx_desc_bits_spec ⟨3, 100, false⟩ ⟨⟨[], 0, 0, 0⟩, []⟩ 0
    (fun _ => ⟨0, 0, 0⟩) (by decide)).1.1

/-! ## Teardown (Drop) of the receive and transmit rings -/

/-- A single MMIO register access issued by driver code: a write of a value
to a register offset, or a read of a register offset. -/
inductive RegAccess where
  | write (offset : Nat) (value : Nat) : RegAccess
  | read (offset : Nat) : RegAccess
deriving DecidableEq

/-- Receive descriptor control register offset (`RXDCTL` in `rxtx/mod.rs`). -/
def RXDCTL : Nat := 0xC028

/-- Transmit descriptor control register offset (`TXDCTL` in `rxtx/mod.rs`). -/
def TXDCTL : Nat := 0xE028

/-- Bit position of the queue-enable field in RXDCTL/TXDCTL
(`ENABLE OFFSET(25) NUMBITS(1)`). -/
def DCTL_ENABLE_BIT : Nat := 25

/-- Register-access trace of `impl Drop for RxRing` (rx.rs): one write to
RXDCTL of PTHRESH=8, HTHRESH=8, WTHRESH=1 and ENABLE::Disabled (0), the
tock-registers `+` being bitwise or of the shifted field values. -/
def RxRing.drop_trace : List RegAccess :=
  [.write RXDCTL (8 ||| (8 <<< 8) ||| (1 <<< 16) ||| (0 <<< 25))]

/-- Register-access trace of `impl Drop for TxRing` (tx.rs): one write to
TXDCTL of ENABLE::CLEAR, whose field value is 0. -/
def TxRing.drop_trace : List RegAccess :=
  [.write TXDCTL (0 <<< 25)]

/-- Counterexample to C7 as stated.  Both Drop implementations issue
exactly one register access — a write — and never read the control
register back, so neither teardown can wait for the disable to take
effect before the memory is released. -/
theorem ring_teardown_cex :
    RxRing.drop_trace.countP
        (fun a => match a with | .read _ => true | _ => false) = 0 ∧
    TxRing.drop_trace.countP
        (fun a => match a with | .read _ => true | _ => false) = 0 ∧
    RxRing.drop_trace.length = 1 ∧ TxRing.drop_trace.length = 1 := by
  refine ⟨by decide, by decide, by decide, by decide⟩

/-- C7 (amended).  Receive-ring teardown writes the queue's control
register once with the enable bit (bit 25) clear, and transmit-ring
teardown does the same to its control register; neither performs any
register read, so the code does not wait for the disable to take effect
before the buffers are released. -/
theorem ring_teardown_spec :
    (∃ v, RxRing.drop_trace = [.write RXDCTL v] ∧
      v.testBit DCTL_ENABLE_BIT = false) ∧
    (∃ v, TxRing.drop_trace = [.write TXDCTL v] ∧
      v.testBit DCTL_ENABLE_BIT = false) ∧
    (∀ a ∈ RxRing.drop_trace, ∀ off, a ≠ .read off) ∧
    (∀ a ∈ TxRing.drop_trace, ∀ off, a ≠ .read off) := by
  refine ⟨⟨8 ||| (8 <<< 8) ||| (1 <<< 16) ||| (0 <<< 25), rfl, by decide⟩,
    ⟨0 <<< 25, rfl, by decide⟩, ?_, ?_⟩
  · intro a ha off
    simp only [RxRing.drop_trace, List.mem_singleton] at ha
    subst ha
    intro hcon
    exact absurd hcon (by simp)
  · intro a ha off
    simp only [TxRing.drop_trace, List.mem_singleton] at ha
    subst ha
    intro hcon
    exact absurd hcon (by simp)

/-! ## Bounded polling: wait_for, Mac::reset, Phy::wait_for_negotiate -/

/-- Main loop of `misc.rs wait_for`: try the condition up to `fuel` times,
sleeping `interval` after each failed attempt; `f i` is the outcome of the
i-th call of the closure.  Returns the index of the first successful
attempt, or the timeout error when the budget is exhausted, together with
the list of sleep durations performed. -/
def wait_for_loop (f : Nat → Bool) (interval : Nat) :
    Nat → Nat → Except String Nat × List Nat
  | 0, _ => (.error "timeout", [])
  | fuel + 1, i =>
    if f i then (.ok i, [])
    else
      let r := wait_for_loop f interval fuel (i + 1)
      (r.1, interval :: r.2)

/-- From `misc.rs`: `wait_for(f, interval, try_count)` iterates
`try_count.unwrap_or(usize::MAX)` times starting from attempt 0. -/
def wait_for (f : Nat → Bool) (interval : Nat) (try_count : Option Nat) :
    Except String Nat × List Nat :=
  wait_for_loop f interval (try_count.getD (2 ^ 64 - 1)) 0

/-- CTRL device-reset bit: `RST OFFSET(26)` in `mac.rs`. -/
def CTRL_RST : Nat := 2 ^ 26

/-- CTRL PHY-reset bit: `PHY_RST OFFSET(31)` in `mac.rs`. -/
def CTRL_PHY_RST : Nat := 2 ^ 31

/-- PHY status auto-negotiation-complete bit:
`AUTO_NEGOTIATION_COMPLETE OFFSET(5)` in `phy.rs`. -/
def PSTATUS_AUTO_NEGOTIATION_COMPLETE : Nat := 2 ^ 5

/-- Poll condition of `Mac::reset`:
`matches_all(CTRL::RST::Normal + CTRL::PHY_RST::CLEAR)`, i.e. both reset
bits of the value read back from CTRL are clear; `ctrl i` is the value the
i-th poll reads. -/
def resetCond (ctrl : Nat → Nat) (i : Nat) : Bool :=
  (ctrl i &&& (CTRL_RST ||| CTRL_PHY_RST)) == 0

/-- From `Mac::reset` (mac.rs): write `CTRL::RST::Reset + CTRL::PHY_RST::SET`
to CTRL, then `wait_for` the reset condition with a 100 ms interval and a
bound of 100 attempts, mapping the timeout error to `()`.  The result is
the written CTRL value, the poll outcome and the sleep log. -/
def Mac.reset (ctrl : Nat → Nat) :
    Nat × Except Unit Nat × List Nat :=
  let r := wait_for (resetCond ctrl) 100 (some 100)
  (CTRL_RST ||| CTRL_PHY_RST, r.1.mapError (fun _ => ()), r.2)

/-- Poll condition of `Phy::wait_for_negotiate`: a successful PHY status
read with the auto-negotiation-complete bit set; a failed read (`none`)
yields `false`, counting as an unsuccessful attempt. -/
def negotiateCond (status : Nat → Option Nat) (i : Nat) : Bool :=
  match status i with
  | some st => (st &&& PSTATUS_AUTO_NEGOTIATION_COMPLETE) != 0
  | none => false

/-- From `Phy::wait_for_negotiate` (phy.rs): `wait_for` the negotiate
condition with a 500 ms interval and a bound of 500 attempts, mapping the
timeout error to `()`. -/
def Phy.wait_for_negotiate (status : Nat → Option Nat) :
    Except Unit Nat × List Nat :=
  let r := wait_for (negotiateCond status) 500 (some 500)
  (r.1.mapError (fun _ => ()), r.2)

/-- Exact behaviour of the polling loop: if the condition fails for the
whole budget the loop times out after `fuel` sleeps; if attempt `k` is the
first success within the budget the loop stops there after `k` sleeps. -/
theorem wait_for_loop_spec (f : Nat → Bool) (interval : Nat) :
    ∀ fuel i,
      ((∀ j, j < fuel → f (i + j) = false) →
        wait_for_loop f interval fuel i =
          (.error "timeout", List.replicate fuel interval)) ∧
      (∀ k, k < fuel → f (i + k) = true →
        (∀ j, j < k → f (i + j) = false) →
        wait_for_loop f interval fuel i =
          (.ok (i + k), List.replicate k interval)) := by
  intro fuel
  induction fuel with
  | zero =>
    intro i
    refine ⟨fun _ => rfl, fun k hk => absurd hk (Nat.not_lt_zero k)⟩
  | succ fuel ih =>
    intro i
    constructor
    · intro hall
      have h0 : f i = false := by
        have := hall 0 (Nat.succ_pos fuel)
        simpa using this
      have hrec := (ih (i + 1)).1 (fun j hj => by
        have := hall (j + 1) (by omega)
        rw [show i + 1 + j = i + (j + 1) from by omega]
        exact this)
      simp [wait_for_loop, h0, hrec, List.replicate_succ]
    · intro k hk hfk hleast
      match k with
      | 0 =>
        have h0 : f i = true := by simpa using hfk
        simp [wait_for_loop, h0]
      | k + 1 =>
        have h0 : f i = false := by
          have := hleast 0 (Nat.succ_pos k)
          simpa using this
        have hrec := (ih (i + 1)).2 k (by omega)
          (by rw [show i + 1 + k = i + (k + 1) from by omega]; exact hfk)
          (fun j hj => by
            have := hleast (j + 1) (by omega)
            rw [show i + 1 + j = i + (j + 1) from by omega]
            exact this)
        simp [wait_for_loop, h0, hrec, List.replicate_succ]
        omega

/-- C8.  `reset()` writes the global-reset bit (26) and the PHY-reset bit
(31); it then polls with 100 ms sleeps for at most 100 attempts, returning
success as soon as both bits read clear (after exactly as many sleeps as
failed attempts) and the timeout error exactly when all 100 attempts fail.
`wait_for_negotiate()` polls the PHY status auto-negotiation-complete bit
(5) with 500 ms sleeps for at most 500 attempts, failing exactly on
exhaustion; a failed PHY status read counts as an unsuccessful attempt. -/
theorem reset_negotiate_poll_spec (ctrl : Nat → Nat)
    (status : Nat → Option Nat) :
    ((Mac.reset ctrl).1.testBit 26 = true ∧
     (Mac.reset ctrl).1.testBit 31 = true) ∧
    (∀ k, k < 100 → resetCond ctrl k = true →
      (∀ j, j < k → resetCond ctrl j = false) →
      (Mac.reset ctrl).2 = (.ok k, List.replicate k 100)) ∧
    ((∀ j, j < 100 → resetCond ctrl j = false) →
      (Mac.reset ctrl).2 = (.error (), List.replicate 100 100)) ∧
    (∀ k, resetCond ctrl k = true ↔
      ctrl k &&& (CTRL_RST ||| CTRL_PHY_RST) = 0) ∧
    (∀ k, k < 500 → negotiateCond status k = true →
      (∀ j, j < k → negotiateCond status j = false) →
      Phy.wait_for_negotiate status = (.ok k, List.replicate k 500)) ∧
    ((∀ j, j < 500 → negotiateCond status j = false) →
      Phy.wait_for_negotiate status = (.error (), List.replicate 500 500)) ∧
    (∀ j, status j = none → negotiateCond status j = false) := by
  refine ⟨⟨?_, ?_⟩, ?_, ?_, ?_, ?_, ?_, ?_⟩
  · show (CTRL_RST ||| CTRL_PHY_RST).testBit 26 = true
    decide
  · show (CTRL_RST ||| CTRL_PHY_RST).testBit 31 = true
    decide
  · intro k hk hfk hleast
    have hrec := (wait_for_loop_spec (resetCond ctrl) 100 100 0).2 k hk
      (by simpa using hfk) (fun j hj => by simpa using hleast j hj)
    have hgoal : (Mac.reset ctrl).2 =
        ((wait_for_loop (resetCond ctrl) 100 100 0).1.mapError
            (fun _ => ()),
         (wait_for_loop (resetCond ctrl) 100 100 0).2) := rfl
    rw [hgoal, hrec]
    simp [Except.mapError]
  · intro hall
    have hrec := (wait_for_loop_spec (resetCond ctrl) 100 100 0).1
      (fun j hj => by simpa using hall j hj)
    have hgoal : (Mac.reset ctrl).2 =
        ((wait_for_loop (resetCond ctrl) 100 100 0).1.mapError
            (fun _ => ()),
         (wait_for_loop (resetCond ctrl) 100 100 0).2) := rfl
    rw [hgoal, hrec]
    simp [Except.mapError]
  · intro k
    simp [resetCond]
  · intro k hk hfk hleast
    have hrec := (wait_for_loop_spec (negotiateCond status) 500 500 0).2 k hk
      (by simpa using hfk) (fun j hj => by simpa using hleast j hj)
    have hgoal : Phy.wait_for_negotiate status =
        ((wait_for_loop (negotiateCond status) 500 500 0).1.mapError
            (fun _ => ()),
         (wait_for_loop (negotiateCond status) 500 500 0).2) := rfl
    rw [hgoal, hrec]
    simp [Except.mapError]
  · intro hall
    have hrec := (wait_for_loop_spec (negotiateCond status) 500 500 0).1
      (fun j hj => by simpa using hall j hj)
    have hgoal : Phy.wait_for_negotiate status =
        ((wait_for_loop (negotiateCond status) 500 500 0).1.mapError
            (fun _ => ()),
         (wait_for_loop (negotiateCond status) 500 500 0).2) := rfl
    rw [hgoal, hrec]
    rfl
  · intro j hj
    simp [negotiateCond, hj]

/-- Witness for C8: with CTRL reading back 0 at once, reset succeeds on
attempt 0 with no sleeps; a PHY whose status read always fails times out
after 500 sleeps of 500 ms. -/
theorem reset_negotiate_poll_spec_witness :
    ((0 : Nat) < 100 ∧ resetCond (fun _ => 0) 0 = true) ∧
    (Mac.reset (fun _ => 0)).2 = (.ok 0, List.replicate 0 100) ∧
    Phy.wait_for_negotiate (fun _ => none) =
      (.error (), List.replicate 500 500) := by
  refine ⟨⟨by decide, by decide⟩, ?_, ?_⟩
  · exact (reset_negotiate_poll_spec (fun _ => 0) (fun _ => none)).2.1 0
      (by decide) (by decide) (fun j hj => absurd hj (Nat.not_lt_zero j))
  · exact (reset_negotiate_poll_spec (fun _ => 0) (fun _ => none)).2.2.2.2.2.1
      (fun j _ => rfl)
